import Mathlib

/-!
Shallow embedding of the translation-resolution pipeline of the
`better-laravel-translator` package (scanner, namespace extraction, merge
engine, exporter, and the Vite plugin's change-relevance query), together
with proofs settling the specification claims about it.

Conventions used throughout the embedding:

* JS strings are modelled as `List Char` (named `Str`); all string
  operations used by the source (`split`, `endsWith`, `replace`,
  `substring`, `lastIndexOf`, ...) are implemented on that type,
  mirroring JavaScript semantics.
* Node's `path` module is modelled for the POSIX flavour (`sep = '/'`),
  which is the flavour exercised by the repository's own test suite.
  `path.resolve` needs the process working directory; it is threaded as
  an explicit `cwd` argument.
* Filesystem access and the two external text parsers (`JSON.parse` and
  the `php-parser` engine) are black-box collaborators in the source; they
  are modelled by a `World` structure of abstract functions, where a
  `none` result models a thrown exception that the source code catches.
-/

set_option maxHeartbeats 1000000

abbrev Str := List Char

/-- JavaScript `s.split(sep)` for a one-character separator: splits on every
occurrence, keeping empty pieces, and yields `[""]` on the empty string. -/
def splitCh (sep : Char) : Str → List Str
  | [] => [[]]
  | c :: rest =>
    let r := splitCh sep rest
    if c = sep then [] :: r
    else (c :: r.headD []) :: r.tail

/-- Inverse of `splitCh`: join pieces with a one-character separator. -/
def joinCh (sep : Char) : List Str → Str
  | [] => []
  | [p] => p
  | p :: rest => p ++ sep :: joinCh sep rest

/-- JavaScript `s.replace(pat, '')` for a plain (non-regex) pattern:
removes the first occurrence of `pat` only, and returns `s` unchanged when
`pat` does not occur. -/
def replaceFirst (pat : Str) : Str → Str
  | [] => []
  | c :: rest =>
    if pat.isPrefixOf (c :: rest) then (c :: rest).drop pat.length
    else c :: replaceFirst pat rest

/-- JavaScript `s.endsWith(suf)`. -/
def endsWithL (suf s : Str) : Bool := suf.isSuffixOf s

/-- JavaScript `s.startsWith(pre)`. -/
def startsWithL (p s : Str) : Bool := p.isPrefixOf s

def lowerAZ (c : Char) : Bool := decide ('a' ≤ c ∧ c ≤ 'z')

def upperAZ (c : Char) : Bool := decide ('A' ≤ c ∧ c ≤ 'Z')

/-- The scanner's `LOCALE_REGEX = /^[a-z]\x7b2\x7d(_[A-Z]\x7b2\x7d)?$/`
(src/scanner.ts line 17), as a decidable test on char lists: either two
lowercase letters, or two lowercase letters, an underscore and two
uppercase letters. -/
def localeTest : Str → Bool
  | [a, b] => lowerAZ a && lowerAZ b
  | [a, b, u, c, d] => lowerAZ a && lowerAZ b && decide (u = '_') && upperAZ c && upperAZ d
  | _ => false

/-- POSIX path separator, the value of Node's `path.sep` on the platforms
the repository's test suite runs on. -/
def sepC : Char := '/'

/-- Nonempty path segments of a path string (empty pieces produced by
duplicate separators are dropped, as Node's path resolution does). -/
def splitPath (p : Str) : List Str := (splitCh sepC p).filter (fun s => s ≠ [])

def isAbsolutePath (p : Str) : Bool := decide (p.headD ' ' = '/')

/-- One step of Node's segment normalization: `.` is dropped and `..` pops
the previous segment (at an absolute root, popping an empty stack is a
no-op). -/
def resolveStep (acc : List Str) (seg : Str) : List Str :=
  if seg = ['.'] then acc
  else if seg = ['.', '.'] then acc.dropLast
  else acc ++ [seg]

def resolveSegs (segs : List Str) : List Str := segs.foldl resolveStep []

/-- Segment list of `path.resolve(cwd, p)`: an absolute `p` resolves on its
own, a relative `p` resolves against the working directory. -/
def absSegs (cwd p : Str) : List Str :=
  if isAbsolutePath p then resolveSegs (splitPath p)
  else resolveSegs (splitPath cwd ++ splitPath p)

/-- Drop the longest common prefix of two segment lists, returning the two
leftovers. -/
def dropCommon2 : List Str → List Str → List Str × List Str
  | a :: arest, b :: brest =>
    if a = b then dropCommon2 arest brest else (a :: arest, b :: brest)
  | arest, brest => (arest, brest)

/-- Segment list of Node's `path.relative(fromP, toP)`: resolve both
against the working directory, drop the common prefix, and replace each
leftover `fromP` segment by `..`. -/
def relativeSegs (cwd fromP toP : Str) : List Str :=
  let p := dropCommon2 (absSegs cwd fromP) (absSegs cwd toP)
  p.1.map (fun _ => ['.', '.']) ++ p.2

/-- Node's `path.relative(fromP, toP)` as a string (empty when the two
paths resolve to the same place). -/
def relativeStr (cwd fromP toP : Str) : Str := joinCh sepC (relativeSegs cwd fromP toP)

/-- The segment split the scanner computes:
`relative(langPath, filePath).split(sep)` (src/scanner.ts lines 23-24). -/
def relParts (cwd langPath filePath : Str) : List Str :=
  splitCh sepC (relativeStr cwd langPath filePath)

def jsonExtL : Str := ['.', 'j', 's', 'o', 'n']

def phpExtL : Str := ['.', 'p', 'h', 'p']

/-- Admission filter `isValidTranslationFile(filePath, langPath)`
(src/scanner.ts lines 19-41).  A `.json` candidate is admitted when its
path relative to the root is a single segment whose first `.json`
occurrence removed passes the locale test; a `.php` candidate is admitted
when the relative path has at least two segments and the first passes the
locale test; anything else is rejected. -/
def isValidTranslationFile (cwd filePath langPath : Str) : Bool :=
  let parts := relParts cwd langPath filePath
  if endsWithL jsonExtL filePath then
    decide (parts.length = 1) && localeTest (replaceFirst jsonExtL (parts.headD []))
  else if endsWithL phpExtL filePath then
    decide (2 ≤ parts.length) && localeTest (parts.headD [])
  else false

/-- The specification's reading of "the segment with the `.json` extension
stripped": remove the suffix when present, keep the string otherwise. -/
def stripSuffixL (suf s : Str) : Str :=
  if suf.isSuffixOf s then s.take (s.length - suf.length) else s

example : isValidTranslationFile "/".data "/app/lang/en.json".data "/app/lang".data = true := by decide

example : isValidTranslationFile "/".data "/app/lang/composer.json".data "/app/lang".data = false := by decide

example : isValidTranslationFile "/".data "/app/lang/en/auth.php".data "/app/lang".data = true := by decide

example : isValidTranslationFile "/".data "/app/lang/en/admin/dashboard.php".data "/app/lang".data = true := by decide

example : isValidTranslationFile "/".data "/app/lang/config/app.php".data "/app/lang".data = false := by decide

example : isValidTranslationFile "/".data "/app/lang/en/messages.json".data "/app/lang".data = false := by decide

/-!
Semantic trees: the JavaScript values flowing through the pipeline
(strings, numbers, booleans, null, arrays, and plain objects as ordered
key-value sequences, the enumeration order of a JS object).  The three
types form one mutual family so that every recursion of the source
translates to a structural recursion.
-/
mutual
inductive JVal where
  | vstr : Str → JVal
  | vnum : Int → JVal
  | vbool : Bool → JVal
  | vnull : JVal
  | varr : JArr → JVal
  | vobj : JObj → JVal
inductive JArr where
  | anil : JArr
  | acons : JVal → JArr → JArr
inductive JObj where
  | onil : JObj
  | ocons : Str → JVal → JObj → JObj
end

/-- Property read `o[k]` on an object: first matching key wins (JS objects
cannot carry duplicate keys, so on well-formed objects this is exact). -/
def lookupJ : JObj → Str → Option JVal
  | .onil, _ => none
  | .ocons k1 v rest, k => if k1 = k then some v else lookupJ rest k

/-- Property write `o[k] = v`: an existing key keeps its position, a new
key is appended, matching JS object key insertion order. -/
def setJ : JObj → Str → JVal → JObj
  | .onil, k, v => .ocons k v .onil
  | .ocons k1 v1 rest, k, v =>
    if k1 = k then .ocons k1 v rest else .ocons k1 v1 (setJ rest k v)

/-- Entries of an object as a plain list. -/
def toListO : JObj → List (Str × JVal)
  | .onil => []
  | .ocons k v rest => (k, v) :: toListO rest

/-- Elements of an array as a plain list. -/
def toListA : JArr → List JVal
  | .anil => []
  | .acons v rest => v :: toListA rest

def keysO (o : JObj) : List Str := (toListO o).map Prod.fst

/-- The merge engine's `isObject` (src/namespace.ts lines 135-137): not
null, of object type, and not an array. -/
def isObjT : JVal → Bool
  | .vobj _ => true
  | _ => false

/-- JavaScript truthiness of a value. -/
def truthyV : JVal → Bool
  | .vstr s => decide (s ≠ [])
  | .vnum n => decide (n ≠ 0)
  | .vbool b => b
  | .vnull => false
  | .varr _ => true
  | .vobj _ => true

/-- JavaScript truthiness of a possibly-absent value (`none` models
`undefined`). -/
def truthyO : Option JVal → Bool
  | none => false
  | some v => truthyV v

/-- Property access `v.k` for the property names the merge engine reads
(`modules` and module names): an object yields its entry, any other
receiver yields `undefined` for those names. -/
def propGet : JVal → Str → Option JVal
  | .vobj o, k => lookupJ o k
  | _, _ => none

/-- Property write `v.k = x` on an object receiver; on any other receiver
the write is modelled as a no-op (in strict-mode JS a write to a primitive
would throw; no verified claim depends on that corner). -/
def setProp : JVal → Str → JVal → JVal
  | .vobj o, k, x => .vobj (setJ o k x)
  | v, _, _ => v

def propGet2 (v : JVal) (k1 k2 : Str) : Option JVal :=
  match propGet v k1 with
  | some w => propGet w k2
  | none => none

/-- Nested write `v.k1[k2] = x` through an object-valued `k1` property;
modelled as a no-op otherwise (same caveat as `setProp`). -/
def setProp2 (v : JVal) (k1 k2 : Str) (x : JVal) : JVal :=
  match propGet v k1 with
  | some (.vobj mo) => setProp v k1 (.vobj (setJ mo k2 x))
  | _ => v

def natStr (n : Nat) : Str := (Nat.repr n).data

/-- JavaScript `Object.entries`: own enumerable entries of an object, the
index-keyed entries of an array or string, nothing for other primitives. -/
def entriesOf : JVal → List (Str × JVal)
  | .vobj o => toListO o
  | .varr l => (toListA l).enum.map (fun p => (natStr p.1, p.2))
  | .vstr s => s.enum.map (fun p => (natStr p.1, .vstr [p.2]))
  | _ => []

mutual
/-- The merge engine's `deepMerge(target, source)` (src/namespace.ts lines
112-133): when either side is not a plain object the source value replaces
the target wholesale (this includes arrays); when both are objects, the
source entries are folded over a copy of the target via `dmGo`. -/
def deepMergeT : JVal → JVal → JVal
  | t, .vobj so =>
    match t with
    | .vobj tob => .vobj (dmGo tob so tob)
    | _ => .vobj so
  | _, s => s
/-- Loop of `deepMerge` over the source entries (src/namespace.ts lines
120-130): `tob` is the unchanged target used for the `target[key]` reads,
the accumulator starts as the target copy `\x7b...target\x7d`. -/
def dmGo (tob : JObj) : JObj → JObj → JObj
  | .onil, acc => acc
  | .ocons k sv rest, acc =>
    let tv := (lookupJ tob k).getD .vnull
    let v := if isObjT sv && isObjT tv then deepMergeT tv sv else sv
    dmGo tob rest (setJ acc k v)
end

def modulesKey : Str := "modules".data

/-- Namespace wrapper `applyNamespacing(translations, moduleName,
namespaceModules)` (src/namespace.ts lines 56-72): with namespacing off or
no (or empty, hence falsy) module name the tree passes through, otherwise
it is wrapped under `modules.<name>`. -/
def applyNamespacingT (translations : JVal) (moduleName : Option Str)
    (namespaceModules : Bool) : JVal :=
  match moduleName with
  | none => translations
  | some m =>
    if namespaceModules = false ∨ m = [] then translations
    else .vobj (.ocons modulesKey (.vobj (.ocons m translations .onil)) .onil)

/-- Value semantics of the merge engine's
`mergeNamespacedTranslations(existing, newTranslations, locale)`
(src/namespace.ts lines 74-110): ensure the locale entry exists, then
either deep-merge each contributed module under `locale.modules.<name>`,
or deep-merge the contribution directly under the locale.  This function
computes the returned store; the in-place mutation the source additionally
performs on its input is modelled separately by the heap embedding below. -/
def ensureLocaleT (store : JObj) (locale : Str) : JObj :=
  if truthyO (lookupJ store locale) then store else setJ store locale (.vobj .onil)

/-- Body of the merge engine's module loop (src/namespace.ts lines
93-103): ensure `result[locale].modules[name]` exists, then rebind it to
the deep merge of its current value with the module's contribution. -/
def mergeModuleStep (lv : JVal) (kv : Str × JVal) : JVal :=
  let lv1 := if truthyO (propGet2 lv modulesKey kv.1) then lv
             else setProp2 lv modulesKey kv.1 (.vobj .onil)
  setProp2 lv1 modulesKey kv.1
    (deepMergeT ((propGet2 lv1 modulesKey kv.1).getD .vnull) kv.2)

/-- The namespaced branch of the merge (src/namespace.ts lines 87-103):
ensure `result[locale].modules` exists, then fold each contributed module
through `mergeModuleStep`; the locale entry of the returned store is the
resulting tree. -/
def mergeModulesT (result : JObj) (newT : JVal) (locale : Str) : JObj :=
  let l0 := (lookupJ result locale).getD .vnull
  let l1 := if truthyO (propGet l0 modulesKey) then l0
            else setProp l0 modulesKey (.vobj .onil)
  let l2 := (entriesOf ((propGet newT modulesKey).getD .vnull)).foldl mergeModuleStep l1
  setJ result locale l2

def mergeNamespacedTranslationsT (existing : JObj) (newT : JVal) (locale : Str) : JObj :=
  let result := ensureLocaleT existing locale
  if truthyO (propGet newT modulesKey) then mergeModulesT result newT locale
  else setJ result locale (deepMergeT ((lookupJ result locale).getD .vnull) newT)

example :
    mergeNamespacedTranslationsT
      (.ocons "en".data (.vobj (.ocons "messages".data (.vstr "m".data) .onil)) .onil)
      (.vobj (.ocons "auth".data (.vstr "a".data) .onil))
      "en".data
    = .ocons "en".data (.vobj (.ocons "messages".data (.vstr "m".data)
        (.ocons "auth".data (.vstr "a".data) .onil))) .onil := by rfl

example :
    mergeNamespacedTranslationsT
      (.ocons "en".data (.vobj (.ocons "messages".data (.vstr "m".data) .onil)) .onil)
      (.vobj (.ocons "modules".data (.vobj (.ocons "user".data (.vstr "u".data) .onil)) .onil))
      "en".data
    = .ocons "en".data (.vobj (.ocons "messages".data (.vstr "m".data)
        (.ocons "modules".data (.vobj (.ocons "user".data (.vstr "u".data) .onil)) .onil))) .onil := by rfl

def isLetterAZ (c : Char) : Bool := lowerAZ c || upperAZ c

def backslashC : Char := '\\'

def isSlashChar (c : Char) : Bool := decide (c = '/' ∨ c = '\\')

/-- Strip of leading `/` and `\` characters, the regex replace
`^[/\\]+` → empty used by the namespace extractor. -/
def dropSlashesStart (s : Str) : Str := s.dropWhile isSlashChar

/-- Strip of trailing `/` and `\` characters, the regex replace
`[/\\]+$` → empty used by the namespace extractor. -/
def dropSlashesEnd (s : Str) : Str := (s.reverse.dropWhile isSlashChar).reverse

/-- One step of Node's `normalizeString`: `.` is dropped; `..` pops a
poppable last segment, and is kept (relative paths) or dropped (absolute
paths, `allowUp = false`) when there is nothing to pop. -/
def normStep (allowUp : Bool) (acc : List Str) (seg : Str) : List Str :=
  if seg = ['.'] then acc
  else if seg = ['.', '.'] then
    if allowUp then
      match acc.getLast? with
      | some l => if l = ['.', '.'] then acc ++ [seg] else acc.dropLast
      | none => acc ++ [seg]
    else acc.dropLast
  else acc ++ [seg]

/-- Node's POSIX `path.normalize`: collapse separators, resolve `.` and
`..` segments, keep a leading root and a trailing separator. -/
def normalizeEmb (p : Str) : Str :=
  if p = [] then ['.']
  else
    let abs := isAbsolutePath p
    let trail := decide (p.getLast? = some '/')
    let core := (splitPath p).foldl (normStep (!abs)) []
    let body := joinCh sepC core
    if body = [] then (if abs then ['/'] else ['.'])
    else
      let withRoot := if abs then '/' :: body else body
      if trail then withRoot ++ ['/'] else withRoot

/-- Node's `path.resolve(p)` against the working directory `cwd`: always
an absolute, normalized path without a trailing separator. -/
def resolveEmb (cwd p : Str) : Str := '/' :: joinCh sepC (absSegs cwd p)

/-- Node's `path.join(a, b)`: concatenate with a separator and
normalize. -/
def joinP (a b : Str) : Str :=
  if a = [] ∧ b = [] then ['.']
  else if a = [] then normalizeEmb b
  else if b = [] then normalizeEmb a
  else normalizeEmb (a ++ '/' :: b)

def occursAt (pat s : Str) (i : Nat) : Bool := pat.isPrefixOf (s.drop i)

/-- JavaScript `s.lastIndexOf(pat)` for a substring pattern, as an option
(`none` models the `-1` result). -/
def lastIndexOfSub (pat s : Str) : Option Nat :=
  ((List.range (s.length + 1)).filter (occursAt pat s)).getLast?

def langSeg : Str := "lang".data

/-- The namespace extractor `extractModuleName(fullPath, basePath)`
(src/namespace.ts lines 3-54).  It looks for the LAST occurrence of the
substring `sep + "lang"` (then `"/lang"`, then `"\lang"`) in the
normalized resource root path; everything between the pattern anchor (the
part of `basePath` before its first `*`, made absolute if needed) and that
occurrence, with surrounding separators trimmed, is the module name. -/
def extractModuleNameEmb (cwd fullPath basePath : Str) : Option Str :=
  let nf := normalizeEmb fullPath
  let nb := normalizeEmb basePath
  let idx1 := lastIndexOfSub (sepC :: langSeg) nf
  let idx2 := match idx1 with
    | some i => some i
    | none => lastIndexOfSub ('/' :: langSeg) nf
  let langIndex := match idx2 with
    | some i => some i
    | none => lastIndexOfSub (backslashC :: langSeg) nf
  match langIndex with
  | none => none
  | some i =>
    let beforeLang := nf.take i
    let baseDir1 := if nb.contains '*' then
        dropSlashesEnd (nb.takeWhile (fun c => decide (c ≠ '*')))
      else nb
    let isAbs := startsWithL [sepC] baseDir1 ||
      (isLetterAZ (baseDir1.headD ' ') && decide (baseDir1[1]? = some ':'))
    let baseDir := if isAbs then baseDir1 else normalizeEmb (resolveEmb cwd baseDir1)
    if startsWithL baseDir beforeLang = false then none
    else
      let modulePath := dropSlashesEnd (dropSlashesStart (beforeLang.drop baseDir.length))
      if modulePath = [] then none else some modulePath

example : extractModuleNameEmb "/".data "/project/app-modules/user/lang".data
    "/project/app-modules/*/lang".data = some "user".data := by decide

example : extractModuleNameEmb "/".data "/project/app-modules/admin/settings/lang".data
    "/project/app-modules/**/lang".data = some "admin/settings".data := by decide

example : extractModuleNameEmb "/".data "/project/app-modules/user/resources".data
    "/project/app-modules/*/resources".data = none := by decide

example : extractModuleNameEmb "/".data "/project/lang".data "/project/lang".data = none := by decide

example : extractModuleNameEmb "/".data "/project/packages/vendor/package-name/resources/lang".data
    "/project/packages/*/*/resources/lang".data = some "vendor/package-name/resources".data := by decide

example : extractModuleNameEmb "/".data "/project/app-modules/user/lang/".data
    "/project/app-modules/*/lang/".data = some "user".data := by decide

example : extractModuleNameEmb "/".data "/different/path/user/lang".data
    "/project/app-modules/*/lang".data = none := by decide

/-!
The document loader's PHP side.  The external `php-parser` engine is a
black box producing an abstract syntax tree; the repository interprets the
node kinds below (src/exporter.ts lines 126-167).  Array items are `entry`
nodes carrying an optional key; they are modelled by the two `PhpItems`
constructors so the interpretation is structurally recursive.
-/
mutual
inductive PhpExpr where
  | pstr : Str → PhpExpr
  | pnum : Str → PhpExpr
  | pbool : Bool → PhpExpr
  | parr : PhpItems → PhpExpr
  | pbin : Str → PhpExpr → PhpExpr → PhpExpr
  | pother : PhpExpr
inductive PhpItems where
  | inil : PhpItems
  | ikeyed : PhpExpr → PhpExpr → PhpItems → PhpItems
  | ipos : PhpExpr → PhpItems → PhpItems
end

/-- JavaScript string coercion as used for a computed object key and for
the operands of `+`.  Values reaching this in practice are strings (PHP
literal keys and concatenation pieces); the coercion of composite values
is modelled coarsely. -/
def keyToStr : JVal → Str
  | .vstr s => s
  | .vnum n => (toString n).data
  | .vbool b => if b then "true".data else "false".data
  | .vnull => "null".data
  | .varr _ => []
  | .vobj _ => "[object Object]".data

/-- Whether every array item carries an explicit key
(`expr.items.every(item => item.key !== null)`). -/
def allKeyed : PhpItems → Bool
  | .inil => true
  | .ikeyed _ _ rest => allKeyed rest
  | .ipos _ _ => false

def assignEntries (acc : JObj) : List (Str × JVal) → JObj
  | [] => acc
  | (k, v) :: rest => assignEntries (setJ acc k v) rest

/-- One step of `Object.assign(\x7b\x7d, acc, val)`: an object spreads its
entries over the accumulator (later keys override), anything else
contributes nothing (only single-entry objects reach this in the
source). -/
def assignOne (acc : JObj) (v : JVal) : JObj :=
  match v with
  | .vobj o => assignEntries acc (toListO o)
  | _ => acc

def assignAll (acc : JObj) : List JVal → JObj
  | [] => acc
  | v :: rest => assignAll (assignOne acc v) rest

def arrOfList : List JVal → JArr
  | [] => .anil
  | v :: rest => .acons v (arrOfList rest)

mutual
/-- The loader's `parsePhpExpression(expr)` (src/exporter.ts lines
126-167): scalars map to themselves (php-parser number nodes carry their
literal text as a string), a fully keyed array literal folds its
single-entry objects with `Object.assign`, a positional array stays a
sequence, a `.` binary node concatenates, and everything else yields
null. -/
def parsePhpExpr : PhpExpr → JVal
  | .pstr s => .vstr s
  | .pnum s => .vstr s
  | .pbool b => .vbool b
  | .parr items =>
    let vals := parseItems items
    if allKeyed items then .vobj (assignAll .onil vals)
    else .varr (arrOfList vals)
  | .pbin op l r =>
    if op = ['.'] then .vstr (keyToStr (parsePhpExpr l) ++ keyToStr (parsePhpExpr r))
    else .vnull
  | .pother => .vnull
/-- Interpretation of the mapped array items: a keyed entry becomes the
single-entry object the default switch case builds, a positional entry is
its interpreted value. -/
def parseItems : PhpItems → List JVal
  | .inil => []
  | .ikeyed k v rest =>
    .vobj (.ocons (keyToStr (parsePhpExpr k)) (parsePhpExpr v) .onil) :: parseItems rest
  | .ipos v rest => parsePhpExpr v :: parseItems rest
end

/-- Top-level statements of a parsed PHP program, as far as the loader
inspects them: a `return` statement with an optional expression, or
anything else. -/
inductive PhpNode where
  | nreturn : Option PhpExpr → PhpNode
  | nother : PhpNode

def isReturnNode : PhpNode → Bool
  | .nreturn _ => true
  | _ => false

/-- The loader's `parsePhpFile` on an already-parsed program
(src/exporter.ts lines 110-124): find the first top-level return
statement; unless it returns an array literal the resource yields null. -/
def phpProgramValue (ast : List PhpNode) : Option JVal :=
  match ast.find? isReturnNode with
  | some (.nreturn (some e)) =>
    match e with
    | .parr _ => some (parsePhpExpr e)
    | _ => none
  | _ => none

example : phpProgramValue [.nreturn (some (.parr (.ikeyed (.pstr "failed".data)
    (.pstr "Nope".data) .inil)))]
    = some (.vobj (.ocons "failed".data (.vstr "Nope".data) .onil)) := by rfl

example : phpProgramValue [.nreturn (some (.pstr "x".data))] = none := by rfl

example : phpProgramValue [.nother] = none := by rfl

/-- The environment of the pipeline: the working directory, the
filesystem, and the two external text parsers.  A `none` result models a
thrown exception at the corresponding call site (missing file, unreadable
directory, malformed document); `stat p` is the outcome of
`statSync(p).isDirectory()`. -/
structure World where
  cwd : Str
  readdir : Str → Option (List Str)
  stat : Str → Option Bool
  globPhp : Str → List Str
  readFile : Str → Option Str
  parseJson : Str → Option JVal
  parsePhp : Str → Option (List PhpNode)
  globSync : Str → List Str → Nat → List Str

inductive FType where
  | fphp : FType
  | fjson : FType
deriving DecidableEq

/-- A discovered translation resource as the exporter sees it: the
scanner's descriptor (path, locale, format) extended with the scan root
and the originating auxiliary pattern (src/exporter.ts line 50). -/
structure TFile where
  fpath : Str
  locale : Str
  ftype : FType
  basePath : Str
  spat : Option Str
deriving DecidableEq

/-- The glob resolver's `containsGlobCharacters` (src/glob-resolver.ts
lines 66-68), the test for the character class of `*?\x7b\x7d[]()`. -/
def containsGlobChars (p : Str) : Bool :=
  p.any (fun c => decide (c ∈ ['*', '?', '{', '}', '[', ']', '(', ')']))

def defaultExcludes : List Str :=
  ["**/node_modules/**".data, "**/vendor/**".data, "**/.git/**".data]

def strLe : Str → Str → Bool
  | [], _ => true
  | _ :: _, [] => false
  | a :: arest, b :: brest => if a = b then strLe arest brest else decide (a < b)

def insSorted (x : Str) : List Str → List Str
  | [] => [x]
  | y :: rest => if strLe x y then x :: y :: rest else y :: insSorted x rest

/-- JavaScript `Array.prototype.sort()` on deduplicated strings:
lexicographic order on code units. -/
def sortStrs (l : List Str) : List Str := l.foldr insSorted []

/-- JavaScript `[...new Set(l)]`: keep the first occurrence of each
element. -/
def dedupFirst (seen : List Str) : List Str → List Str
  | [] => []
  | x :: rest =>
    if decide (x ∈ seen) then dedupFirst seen rest
    else x :: dedupFirst (x :: seen) rest

/-- The pattern resolver `resolveGlobPatterns(patterns, options)`
(src/glob-resolver.ts lines 12-64): a pattern without glob characters
contributes itself, resolved, when it stats as a directory; a glob pattern
contributes its expansion filtered to directories; the result is
deduplicated and sorted.  The memoizing wrapper
`resolveGlobPatternsWithCache` returns the result of this same pure
computation (within one export call the filesystem is fixed, so a cache
hit and a fresh computation agree), so it is modelled by this function. -/
def resolveGlobPatternsEmb (W : World) (patterns : List Str)
    (excludePaths : Option (List Str)) : List Str :=
  let excl := excludePaths.getD defaultExcludes
  let resolved := patterns.foldl (fun acc pat =>
    if containsGlobChars pat = false then
      match W.stat pat with
      | some true => acc ++ [resolveEmb W.cwd pat]
      | _ => acc
    else
      acc ++ (W.globSync pat excl 10).filter (fun m => (W.stat m).getD false)) []
  sortStrs (dedupFirst [] resolved)

structure ScanOpts where
  includeJson : Bool
  includePhp : Bool
  locales : Option (List Str)

/-- The directory scanner `scanDirectory(langPath, options)`
(src/scanner.ts lines 43-107): locale-named child directories are walked
for `.php` files at arbitrary depth, locale-named `.json` children at the
root are taken directly, and any directory-read or stat failure makes the
whole scan of this root yield nothing (the surrounding try/catch). -/
def scanDirectoryEmb (W : World) (langPath : Str) (opts : ScanOpts) : List TFile :=
  match W.readdir langPath with
  | none => []
  | some entries =>
    if opts.includePhp && entries.any (fun e => (W.stat (joinP langPath e)).isNone) then []
    else
      let phpFiles :=
        if opts.includePhp then
          let localeDirs := (entries.filter (fun e =>
              ((W.stat (joinP langPath e)).getD false) && localeTest e)).filter
              (fun l => match opts.locales with
                | none => true
                | some al => decide (l ∈ al))
          localeDirs.flatMap (fun locale =>
            (W.globPhp (joinP langPath locale)).map (fun f =>
              ⟨f, locale, .fphp, [], none⟩))
        else []
      let jsonFiles :=
        if opts.includeJson then
          (entries.filter (fun f =>
            endsWithL jsonExtL f &&
            (localeTest (replaceFirst jsonExtL f) &&
              match opts.locales with
              | none => true
              | some al => decide (replaceFirst jsonExtL f ∈ al)))).map (fun f =>
            (⟨joinP langPath f, replaceFirst jsonExtL f, .fjson, [], none⟩ : TFile))
        else []
      phpFiles ++ jsonFiles

/-- The document loader `loadTranslationFile(file)` (src/exporter.ts lines
95-108): read the file (a read failure is caught and yields null), then
decode JSON (a parse failure is caught and yields null) or run the PHP
parser and interpret the program (`parsePhpFile`, whose own catch yields
null on a parse failure). -/
def loadTranslationFileEmb (W : World) (file : TFile) : Option JVal :=
  match W.readFile file.fpath with
  | none => none
  | some content =>
    match file.ftype with
    | .fjson => W.parseJson content
    | .fphp =>
      match W.parsePhp content with
      | none => none
      | some ast => phpProgramValue ast

/-- The regex replace `\.php$` → empty: strip the extension only when it
is a suffix. -/
def stripPhpExt (s : Str) : Str :=
  if endsWithL phpExtL s then s.take (s.length - 4) else s

/-- Generalized split used for `relativePath.split(/[/\\]/)`. -/
def splitByPred (p : Char → Bool) : Str → List Str
  | [] => [[]]
  | c :: rest =>
    let r := splitByPred p rest
    if p c then [] :: r else (c :: r.headD []) :: r.tail

/-- The exporter's `buildFileTranslations(file, content)` (src/exporter.ts
lines 169-207): JSON content sits directly under the locale; PHP content
is nested under the directory segments of the file's path relative to its
locale directory, with the extension-stripped filename as innermost
key. -/
def buildFileTranslationsEmb (cwd : Str) (file : TFile) (content : JVal) : JVal :=
  match file.ftype with
  | .fjson => content
  | .fphp =>
    let localePath := joinP file.basePath file.locale
    let relativePath := stripPhpExt (relativeStr cwd localePath file.fpath)
    if (relativePath.contains '/' || relativePath.contains backslashC) = false then
      .vobj (.ocons relativePath content .onil)
    else
      let parts := splitByPred isSlashChar relativePath
      let fileName := (parts.getLast?).getD []
      let dirs := parts.dropLast
      dirs.foldr (fun dir acc => .vobj (.ocons dir acc .onil))
        (.vobj (.ocons fileName content .onil))

/-- Configuration objects (`BetterLaravelTranslatorOptions`): every field
optional, `none` modelling an absent (`undefined`) property. -/
structure TOptions where
  langPath : Option Str := none
  additionalLangPaths : Option (List Str) := none
  namespaceModules : Option Bool := none
  excludePaths : Option (List Str) := none
  locales : Option (List Str) := none
  includeJson : Option Bool := none
  includePhp : Option Bool := none

/-- The public entry point accepts a bare path string or an options
object (src/exporter.ts line 11). -/
inductive PathOrOptions where
  | pstr : Str → PathOrOptions
  | popts : TOptions → PathOrOptions

/-- Backward-compatibility shim (src/exporter.ts lines 13-15): a string
argument becomes an options object with only `langPath` set. -/
def exportOptions : PathOrOptions → TOptions
  | .pstr s => { langPath := some s }
  | .popts o => o

/-- The scan-root list the orchestrator builds (src/exporter.ts lines
27-41): the primary path untagged, then each auxiliary pattern's resolved
directories tagged with their pattern. -/
def exportPathsToScan (W : World) (options : TOptions) : List (Str × Option Str) :=
  let langPath := options.langPath.getD "lang".data
  let additional := options.additionalLangPaths.getD []
  (langPath, none) :: additional.flatMap (fun pat =>
    (resolveGlobPatternsEmb W [pat] options.excludePaths).map (fun p => (p, some pat)))

/-- All translation files the orchestrator collects (src/exporter.ts lines
50-59), each tagged with its scan root and originating pattern. -/
def exportFiles (W : World) (options : TOptions) : List TFile :=
  let scanOpts : ScanOpts :=
    ⟨options.includeJson.getD true, options.includePhp.getD true, options.locales⟩
  (exportPathsToScan W options).flatMap (fun pq =>
    (scanDirectoryEmb W pq.1 scanOpts).map (fun f =>
      { f with basePath := pq.1, spat := pq.2 }))

/-- Module-name extraction for one file (src/exporter.ts lines 69-72):
only when namespacing is on and the file carries a (truthy) pattern. -/
def exportModuleName (W : World) (options : TOptions) (file : TFile) : Option Str :=
  match file.spat with
  | some pat =>
    if options.namespaceModules.getD false && decide (pat ≠ []) then
      extractModuleNameEmb W.cwd file.basePath pat
    else none
  | none => none

/-- The contribution one loaded file makes to the store: its built
structure, optionally namespaced (src/exporter.ts lines 74-82). -/
def exportContribution (W : World) (options : TOptions) (file : TFile) (content : JVal) : JVal :=
  applyNamespacingT (buildFileTranslationsEmb W.cwd file content)
    (exportModuleName W options file) (options.namespaceModules.getD false)

/-- One iteration of the orchestrator's file loop (src/exporter.ts lines
64-90): a falsy load result (null from a failure, but also a falsy parsed
scalar) is skipped, anything else is merged under the file's locale. -/
def exportStep (W : World) (options : TOptions) (store : JObj) (file : TFile) : JObj :=
  if truthyO (loadTranslationFileEmb W file) = false then store
  else
    mergeNamespacedTranslationsT store
      (exportContribution W options file ((loadTranslationFileEmb W file).getD .vnull))
      file.locale

/-- The pipeline orchestrator `exportTranslations(pathOrOptions)`
(src/exporter.ts lines 11-93). -/
def exportTranslationsEmb (W : World) (pathOrOptions : PathOrOptions) : JObj :=
  let options := exportOptions pathOrOptions
  (exportFiles W options).foldl (exportStep W options) .onil

/-!
Heap embedding of the merge engine.  The tree semantics above computes the
store `mergeNamespacedTranslations` RETURNS; this embedding additionally
captures what the call does to its INPUT, since JS objects are references:
the source takes a shallow copy of the store and then assigns through
nested references.  Values are heap references or primitives, objects and
arrays live in numbered cells, and `none`-free total functions model the
mutating statements one by one.
-/

inductive HVal where
  | hstr : Str → HVal
  | hnum : Int → HVal
  | hbool : Bool → HVal
  | hnull : HVal
  | hundefined : HVal
  | href : Nat → HVal
deriving DecidableEq

inductive HCell where
  | cobj : List (Str × HVal) → HCell
  | carr : List HVal → HCell
deriving DecidableEq

structure Heap where
  cells : List HCell
deriving DecidableEq

/-- First-match property read on a key-value list (shared by the heap
embedding; JS objects cannot carry duplicate keys). -/
def lookupK {α : Type} : List (Str × α) → Str → Option α
  | [], _ => none
  | (k1, v) :: rest, k => if k1 = k then some v else lookupK rest k

/-- In-position property write on a key-value list; a new key is
appended. -/
def setK {α : Type} : List (Str × α) → Str → α → List (Str × α)
  | [], k, v => [(k, v)]
  | (k1, v1) :: rest, k, v =>
    if k1 = k then (k1, v) :: rest else (k1, v1) :: setK rest k v

def derefH (h : Heap) (r : Nat) : Option HCell := h.cells[r]?

def allocH (h : Heap) (c : HCell) : Heap × Nat := (⟨h.cells ++ [c]⟩, h.cells.length)

def writeCell (h : Heap) (r : Nat) (c : HCell) : Heap := ⟨h.cells.set r c⟩

/-- Fields of the object in cell `r` (empty for a dangling reference or an
array cell). -/
def objFields (h : Heap) (r : Nat) : List (Str × HVal) :=
  match derefH h r with
  | some (.cobj o) => o
  | _ => []

/-- Heap-level `isObject`. -/
def isObjH (h : Heap) (v : HVal) : Bool :=
  match v with
  | .href r => match derefH h r with | some (.cobj _) => true | _ => false
  | _ => false

def truthyH : HVal → Bool
  | .hstr s => decide (s ≠ [])
  | .hnum n => decide (n ≠ 0)
  | .hbool b => b
  | .hnull => false
  | .hundefined => false
  | .href _ => true

/-- Heap-level property read `v.k` (an absent property, or any
non-object receiver, reads as `undefined`). -/
def hPropGet (h : Heap) (v : HVal) (k : Str) : HVal :=
  match v with
  | .href r =>
    match derefH h r with
    | some (.cobj o) => (lookupK o k).getD .hundefined
    | _ => .hundefined
  | _ => .hundefined

/-- Heap-level property write `v.k = x`; on a non-object receiver the
write is modelled as a no-op (the merge engine only reaches it with an
object receiver on the verified paths). -/
def hPropSet (h : Heap) (v : HVal) (k : Str) (x : HVal) : Heap :=
  match v with
  | .href r =>
    match derefH h r with
    | some (.cobj o) => writeCell h r (.cobj (setK o k x))
    | _ => h
  | _ => h

/-- Heap-level `Object.entries`. -/
def entriesHV (h : Heap) (v : HVal) : List (Str × HVal) :=
  match v with
  | .href r =>
    match derefH h r with
    | some (.cobj o) => o
    | some (.carr l) => l.enum.map (fun p => (natStr p.1, p.2))
    | none => []
  | .hstr s => s.enum.map (fun p => (natStr p.1, .hstr [p.2]))
  | _ => []

/-- Heap-level loop of `deepMerge` over the source entries; the recursive
call is a parameter so `dmFuelH` stays structurally recursive.  The result
object is only allocated by the caller once complete (nothing can
reference it earlier, so this is observationally the JS behaviour). -/
def dmGoH (rec : Heap → HVal → HVal → Heap × HVal) (tob : List (Str × HVal)) :
    List (Str × HVal) → Heap → List (Str × HVal) → Heap × List (Str × HVal)
  | [], h, acc => (h, acc)
  | (k, sv) :: rest, h, acc =>
    let tv := (lookupK tob k).getD .hundefined
    if isObjH h sv && isObjH h tv then
      let p := rec h tv sv
      dmGoH rec tob rest p.1 (setK acc k p.2)
    else dmGoH rec tob rest h (setK acc k sv)

/-- Heap-level `deepMerge(target, source)` (src/namespace.ts lines
112-133).  The fuel bounds the recursion depth (a JS run on an acyclic
heap always has such a bound); every theorem below holds for every fuel.
Note the function only reads existing cells and allocates new ones — it
never writes an existing cell. -/
def dmFuelH : Nat → Heap → HVal → HVal → Heap × HVal
  | 0, h, _, s => (h, s)
  | fuel + 1, h, t, s =>
    if (isObjH h t && isObjH h s) = false then (h, s)
    else
      match t, s with
      | .href rt, .href rs =>
        let tob := objFields h rt
        let so := objFields h rs
        let p := dmGoH (dmFuelH fuel) tob so h tob
        let a := allocH p.1 (.cobj p.2)
        (a.1, .href a.2)
      | _, _ => (h, s)

/-- Step 1 of the heap merge, `const result = \x7b ...existingTranslations \x7d`:
allocate a fresh shallow copy of the store's cell. -/
def mergeHCopy (h0 : Heap) (existingRef : Nat) : Heap × Nat :=
  allocH h0 (.cobj (objFields h0 existingRef))

/-- Step 2, `if (!result[locale]) \x7b result[locale] = \x7b\x7d \x7d`: when the copy's
locale entry is falsy, allocate an empty object and bind it in the copy's
own cell. -/
def mergeHEnsure (h1 : Heap) (rres : Nat) (locale : Str) : Heap :=
  if truthyH ((lookupK (objFields h1 rres) locale).getD .hundefined) then h1
  else
    let e := allocH h1 (.cobj [])
    writeCell e.1 rres (.cobj (setK (objFields e.1 rres) locale (.href e.2)))

/-- The namespaced branch of the heap merge: ensure
`result[locale].modules` exists — a write THROUGH the locale reference,
which the input store shares when the locale already existed — then fold
each module of the contribution into `result[locale].modules[name]`. -/
def mergeHModules (fuel : Nat) (h2 : Heap) (rres newRef : Nat) (locale : Str) : Heap :=
  let locVal := (lookupK (objFields h2 rres) locale).getD .hundefined
  let h3 :=
    if truthyH (hPropGet h2 locVal modulesKey) then h2
    else
      let m := allocH h2 (.cobj [])
      hPropSet m.1 locVal modulesKey (.href m.2)
  let mods := hPropGet h3 (.href newRef) modulesKey
  (entriesHV h3 mods).foldl (fun hh kv =>
    let lv := (lookupK (objFields hh rres) locale).getD .hundefined
    let hh1 :=
      if truthyH (hPropGet hh (hPropGet hh lv modulesKey) kv.1) then hh
      else
        let e2 := allocH hh (.cobj [])
        hPropSet e2.1 (hPropGet e2.1 lv modulesKey) kv.1 (.href e2.2)
    let lv1 := (lookupK (objFields hh1 rres) locale).getD .hundefined
    let cur := hPropGet hh1 (hPropGet hh1 lv1 modulesKey) kv.1
    let dm := dmFuelH fuel hh1 cur kv.2
    hPropSet dm.1 (hPropGet dm.1 lv1 modulesKey) kv.1 dm.2) h3

/-- The unnamespaced branch of the heap merge,
`result[locale] = deepMerge(result[locale], newTranslations)`: `deepMerge`
only reads and allocates, and the result is bound in the copy's own
cell. -/
def mergeHDirect (fuel : Nat) (h2 : Heap) (rres newRef : Nat) (locale : Str) : Heap :=
  let locVal := (lookupK (objFields h2 rres) locale).getD .hundefined
  let dm := dmFuelH fuel h2 locVal (.href newRef)
  writeCell dm.1 rres (.cobj (setK (objFields dm.1 rres) locale dm.2))

/-- Heap semantics of `mergeNamespacedTranslations(existing, new, locale)`
(src/namespace.ts lines 74-110), statement by statement: shallow-copy the
store into a fresh cell, ensure the locale entry, and then either merge
each module under `result[locale].modules` or rebind `result[locale]` to
the `deepMerge` result.  Returns the final heap and the reference to the
returned store. -/
def mergeNamespacedTranslationsH (fuel : Nat) (h0 : Heap) (existingRef newRef : Nat)
    (locale : Str) : Heap × Nat :=
  let c := mergeHCopy h0 existingRef
  let h2 := mergeHEnsure c.1 c.2 locale
  if truthyH (hPropGet h2 (.href newRef) modulesKey) then
    (mergeHModules fuel h2 c.2 newRef locale, c.2)
  else
    (mergeHDirect fuel h2 c.2 newRef locale, c.2)

/-- Heap `h2` preserves every cell of `h1`: nothing that existed in `h1`
has been modified (new cells may have been allocated). -/
def heapExtends (h1 h2 : Heap) : Prop :=
  h1.cells.length ≤ h2.cells.length ∧
    ∀ i, i < h1.cells.length → h2.cells[i]? = h1.cells[i]?

/-- The Vite plugin's change-relevance query
`checkIfTranslationFile(filePath, config)` (tests/integration.test.ts
lines 339-381, the plugin module): normalize the path, require the `.php`
or `.json` extension, then accept when the path lies under the resolved
primary path, or under a metacharacter-free auxiliary path, or — for a
pattern containing `*` or `?` — when it starts (plain string prefix) with
the resolution of the pattern's portion before its first `*`.  The
source's `config.langPath!` non-null assertion is modelled by `getD`;
theorems assume the field is present, as the plugin guarantees by
defaulting it before any call. -/
def checkIfTranslationFileEmb (cwd filePath : Str) (config : TOptions) : Bool :=
  let nf := normalizeEmb filePath
  if (endsWithL phpExtL nf || endsWithL jsonExtL nf) = false then false
  else
    let primaryPath := resolveEmb cwd (config.langPath.getD [])
    if startsWithL (primaryPath ++ [sepC]) nf then true
    else
      (config.additionalLangPaths.getD []).any (fun pat =>
        if (pat.contains '*' || pat.contains '?') = false then
          startsWithL (resolveEmb cwd pat ++ [sepC]) nf
        else
          startsWithL (resolveEmb cwd (pat.takeWhile (fun c => decide (c ≠ '*')))) nf)

/-- The glob metacharacters of the specification's pattern resolver. -/
def globMetaChars : List Char := ['*', '?', '{', '}', '[', ']', '(', ')']

/-- Formalization of the specification's "auxiliary path's literal prefix
(the portion before its first glob metacharacter)". -/
def litAnchor (pat : Str) : Str := pat.takeWhile (fun c => decide (c ∉ globMetaChars))

/-- Formalization of the specification's "lies under": the normalized path
sits strictly inside the resolved base directory. -/
def liesUnder (cwd base p : Str) : Bool :=
  startsWithL (resolveEmb cwd base ++ [sepC]) (normalizeEmb p)

/-- The change-relevance query as claim C7 words it: the markup or text
extension, AND under the primary path or under some auxiliary path's
literal prefix before its first glob metacharacter. -/
def specIsRelevant (cwd filePath : Str) (config : TOptions) : Bool :=
  (endsWithL phpExtL filePath || endsWithL jsonExtL filePath) &&
  (liesUnder cwd (config.langPath.getD []) filePath ||
    (config.additionalLangPaths.getD []).any (fun pat =>
      liesUnder cwd (litAnchor pat) filePath))

example : checkIfTranslationFileEmb "/".data "/app/lang/en/auth.php".data
    { langPath := some "/app/lang".data } = true := by decide

example : checkIfTranslationFileEmb "/".data "/app/lang/en/auth.txt".data
    { langPath := some "/app/lang".data } = false := by decide

example : checkIfTranslationFileEmb "/".data "/modules/user/lang/en.json".data
    { langPath := some "/app/lang".data,
      additionalLangPaths := some ["/modules/*/lang".data] } = true := by decide

/-! Helper lemmas about object reads and writes. -/

/-- List-style induction principle for the object type of the mutual
family. -/
theorem JObj.inductionOn {P : JObj → Prop} (base : P .onil)
    (step : ∀ k v rest, P rest → P (.ocons k v rest)) : ∀ o, P o
  | .onil => base
  | .ocons k v rest => step k v rest (JObj.inductionOn base step rest)

theorem lookupJ_setJ_ne (o : JObj) (k k1 : Str) (v : JVal) (h : k1 ≠ k) :
    lookupJ (setJ o k v) k1 = lookupJ o k1 := by
  induction o using JObj.inductionOn with
  | base => simp [setJ, lookupJ, Ne.symm h]
  | step k2 v2 rest ih =>
    by_cases h2 : k2 = k
    · subst h2
      simp [setJ, lookupJ, Ne.symm h]
    · simp only [setJ, if_neg h2, lookupJ]
      by_cases h3 : k2 = k1 <;> simp [h3, ih]

theorem lookupJ_setJ_self (o : JObj) (k : Str) (v : JVal) :
    lookupJ (setJ o k v) k = some v := by
  induction o using JObj.inductionOn with
  | base => simp [setJ, lookupJ]
  | step k2 v2 rest ih =>
    by_cases h2 : k2 = k <;> simp [setJ, h2, lookupJ, ih]

theorem ensureLocaleT_lookup_ne (store : JObj) (L L1 : Str) (h : L1 ≠ L) :
    lookupJ (ensureLocaleT store L) L1 = lookupJ store L1 := by
  unfold ensureLocaleT
  split
  · rfl
  · exact lookupJ_setJ_ne _ _ _ _ h

theorem mergeNT_lookup_ne (store : JObj) (contrib : JVal) (L L1 : Str) (h : L1 ≠ L) :
    lookupJ (mergeNamespacedTranslationsT store contrib L) L1 = lookupJ store L1 := by
  unfold mergeNamespacedTranslationsT
  by_cases h2 : truthyO (propGet contrib modulesKey) = true
  · rw [if_pos h2]
    simp only [mergeModulesT]
    rw [lookupJ_setJ_ne _ _ _ _ h, ensureLocaleT_lookup_ne store L L1 h]
  · rw [if_neg h2, lookupJ_setJ_ne _ _ _ _ h, ensureLocaleT_lookup_ne store L L1 h]

/-- C9: merging a contribution for one locale never alters any other
locale's subtree: for distinct locales `L1 ≠ L`, the store returned by
`mergeNamespacedTranslations(store, contrib, L)` maps `L1` to exactly the
value the input store mapped it to. -/
theorem C9_merge_preserves_other_locales (store : JObj) (contrib : JVal) (L L1 : Str)
    (h : L1 ≠ L) :
    lookupJ (mergeNamespacedTranslationsT store contrib L) L1 = lookupJ store L1 :=
  mergeNT_lookup_ne store contrib L L1 h

/-- Witness for C9 at a concrete store and contribution. -/
theorem C9_merge_preserves_other_locales_witness :
    lookupJ (mergeNamespacedTranslationsT
      (.ocons "fr".data (.vstr "x".data) (.ocons "en".data (.vstr "y".data) .onil))
      (.vobj (.ocons "a".data (.vstr "b".data) .onil)) "en".data) "fr".data
      = some (.vstr "x".data) := by
  rw [C9_merge_preserves_other_locales _ _ _ _ (by decide)]
  rfl

/-- C10: the backward-compatible string form of the public entry point is
definitionally the options-object form with only `langPath` set. -/
theorem C10_string_form_is_langPath_options (W : World) (s : Str) :
    exportTranslationsEmb W (.pstr s) =
      exportTranslationsEmb W (.popts { langPath := some s }) := rfl

theorem endsWith_php_not_json (p : Str) (h : endsWithL phpExtL p = true) :
    endsWithL jsonExtL p = false := by
  by_contra hj
  simp only [Bool.not_eq_false] at hj
  rw [endsWithL, List.isSuffixOf_iff_suffix] at h hj
  have r1 := h.reverse
  have r2 := hj.reverse
  have hp := List.prefix_of_prefix_length_le r1 r2 (by simp [phpExtL, jsonExtL])
  exact absurd hp (by decide)

/-- C5: for a candidate ending in `.php`, the admission filter accepts
exactly when the path relative to the root has at least two segments and
the first segment passes the locale test. -/
theorem C5_php_admission (cwd root p : Str) (h : endsWithL phpExtL p = true) :
    isValidTranslationFile cwd p root = true ↔
      (2 ≤ (relParts cwd root p).length ∧
        localeTest ((relParts cwd root p).headD []) = true) := by
  have hj := endsWith_php_not_json p h
  simp [isValidTranslationFile, h, hj]

/-- Witness for C5: `en/auth.php` and `en/admin/dashboard.php` under the
root are admitted, `config/app.php` is not. -/
theorem C5_php_admission_witness :
    isValidTranslationFile "/".data "/lang/en/auth.php".data "/lang".data = true ∧
    isValidTranslationFile "/".data "/lang/en/admin/dashboard.php".data "/lang".data = true ∧
    isValidTranslationFile "/".data "/lang/config/app.php".data "/lang".data = false := by
  refine ⟨(C5_php_admission _ _ _ (by decide)).mpr ⟨by decide, by decide⟩,
    (C5_php_admission _ _ _ (by decide)).mpr ⟨by decide, by decide⟩, ?_⟩
  have h3 := C5_php_admission "/".data "/lang".data "/lang/config/app.php".data (by decide)
  by_contra hc
  simp only [Bool.not_eq_false] at hc
  have h4 := h3.mp hc
  revert h4
  decide

/-- Counterexample to C4: `/app/mod/language` has no path segment equal to
`lang` under either separator convention, yet `extractModuleName` returns
the module name `mod` — the code searches for the SUBSTRING `/lang` (or
`\lang`), which also matches inside the segment `language`. -/
theorem C4_counterexample :
    (∀ seg ∈ splitPath "/app/mod/language".data, seg ≠ langSeg) ∧
    (∀ seg ∈ splitByPred isSlashChar "/app/mod/language".data, seg ≠ langSeg) ∧
    extractModuleNameEmb "/".data "/app/mod/language".data "/app".data = some "mod".data := by
  exact ⟨by decide, by decide, by decide⟩

/-- C4 amended: when the normalized resource root path contains no
occurrence of a separator immediately followed by `lang` — that is, no
path segment BEGINNING with `lang`, under either separator convention —
`extractModuleName` returns null, and a null module name leaves the
contribution unnamespaced. -/
theorem C4_amended_no_lang_segment (cwd fullPath basePath : Str)
    (h1 : lastIndexOfSub (sepC :: langSeg) (normalizeEmb fullPath) = none)
    (h2 : lastIndexOfSub (backslashC :: langSeg) (normalizeEmb fullPath) = none) :
    extractModuleNameEmb cwd fullPath basePath = none ∧
      ∀ (t : JVal) (ns : Bool), applyNamespacingT t none ns = t := by
  constructor
  · have h1b : lastIndexOfSub ('/' :: langSeg) (normalizeEmb fullPath) = none := by
      simpa [sepC] using h1
    unfold extractModuleNameEmb
    simp [h1, h1b, h2]
  · intro t ns
    rfl

/-- Witness for the amended C4 at a concrete path without `lang`. -/
theorem C4_amended_no_lang_segment_witness :
    extractModuleNameEmb "/".data "/app/mod/resources".data "/app".data = none ∧
      applyNamespacingT (.vstr "t".data) none true = .vstr "t".data := by
  have h := C4_amended_no_lang_segment "/".data "/app/mod/resources".data "/app".data
    (by decide) (by decide)
  exact ⟨h.1, h.2 (.vstr "t".data) true⟩

theorem heapExtends_refl (h : Heap) : heapExtends h h :=
  ⟨Nat.le_refl _, fun _ _ => rfl⟩

theorem heapExtends_trans {h1 h2 h3 : Heap} (a : heapExtends h1 h2)
    (b : heapExtends h2 h3) : heapExtends h1 h3 := by
  refine ⟨Nat.le_trans a.1 b.1, fun i hi => ?_⟩
  rw [b.2 i (Nat.lt_of_lt_of_le hi a.1), a.2 i hi]

theorem heapExtends_alloc (h : Heap) (c : HCell) : heapExtends h (allocH h c).1 := by
  refine ⟨by simp [allocH], fun i hi => ?_⟩
  simp [allocH, List.getElem?_append, hi]

theorem heapExtends_writeCell {h0 h : Heap} (j : Nat) (c : HCell)
    (hx : heapExtends h0 h) (hj : h0.cells.length ≤ j) :
    heapExtends h0 (writeCell h j c) := by
  refine ⟨by simpa [writeCell] using hx.1, fun i hi => ?_⟩
  have hne : j ≠ i := fun he => absurd hi (by omega)
  simp [writeCell, List.getElem?_set, hne, hx.2 i hi]

theorem dmGoH_extends (rec : Heap → HVal → HVal → Heap × HVal)
    (hrec : ∀ h t s, heapExtends h (rec h t s).1) (tob : List (Str × HVal)) :
    ∀ (src : List (Str × HVal)) (h : Heap) (acc : List (Str × HVal)),
      heapExtends h (dmGoH rec tob src h acc).1
  | [], h, acc => heapExtends_refl h
  | (k, sv) :: rest, h, acc => by
    unfold dmGoH
    by_cases hc : (isObjH h sv && isObjH h ((lookupK tob k).getD .hundefined)) = true
    · simp only [hc, if_true]
      exact heapExtends_trans (hrec h _ sv) (dmGoH_extends rec hrec tob rest _ _)
    · simp only [hc, if_false]
      exact dmGoH_extends rec hrec tob rest h _

theorem dmFuelH_extends (fuel : Nat) : ∀ (h : Heap) (t s : HVal),
    heapExtends h (dmFuelH fuel h t s).1 := by
  induction fuel with
  | zero => intro h t s; exact heapExtends_refl h
  | succ n ih =>
    intro h t s
    unfold dmFuelH
    by_cases hg : (isObjH h t && isObjH h s) = false
    · simp only [hg, if_true]
      exact heapExtends_refl h
    · simp only [hg, if_false]
      cases t with
      | href rt =>
        cases s with
        | href rs =>
          exact heapExtends_trans (dmGoH_extends _ ih _ _ _ _) (heapExtends_alloc _ _)
        | hstr s => exact heapExtends_refl h
        | hnum n => exact heapExtends_refl h
        | hbool b => exact heapExtends_refl h
        | hnull => exact heapExtends_refl h
        | hundefined => exact heapExtends_refl h
      | hstr s => exact heapExtends_refl h
      | hnum n => exact heapExtends_refl h
      | hbool b => exact heapExtends_refl h
      | hnull => exact heapExtends_refl h
      | hundefined => exact heapExtends_refl h

theorem mergeHEnsure_extends {h0 h1 : Heap} (rres : Nat) (loc : Str)
    (hx : heapExtends h0 h1) (hr : h0.cells.length ≤ rres) :
    heapExtends h0 (mergeHEnsure h1 rres loc) := by
  unfold mergeHEnsure
  by_cases hc : truthyH ((lookupK (objFields h1 rres) loc).getD .hundefined) = true
  · simpa [hc] using hx
  · simp only [hc, if_false]
    exact heapExtends_writeCell rres _
      (heapExtends_trans hx (heapExtends_alloc h1 _)) hr

theorem mergeHDirect_extends {h0 h2 : Heap} (fuel : Nat) (rres newRef : Nat) (loc : Str)
    (hx : heapExtends h0 h2) (hr : h0.cells.length ≤ rres) :
    heapExtends h0 (mergeHDirect fuel h2 rres newRef loc) := by
  unfold mergeHDirect
  exact heapExtends_writeCell rres _
    (heapExtends_trans hx (dmFuelH_extends fuel h2 _ _)) hr

theorem hPropGet_congr {h0 h : Heap} (r : Nat) (k : Str)
    (hx : heapExtends h0 h) (hr : r < h0.cells.length) :
    hPropGet h (.href r) k = hPropGet h0 (.href r) k := by
  simp only [hPropGet, derefH, hx.2 r hr]

/-- C2 amended: when the contribution carries no (truthy) top-level
`modules` key — in particular for every unnamespaced contribution — the
merge is pure in the immutable-update sense: it returns the updated store
and every heap cell that existed before the call is left unchanged, so the
input store and all of its nested subtrees are bitwise what they were. -/
theorem C2_amended_pure_without_modules (fuel : Nat) (h0 : Heap) (eref nref : Nat)
    (loc : Str) (hn : nref < h0.cells.length)
    (hm : truthyH (hPropGet h0 (.href nref) modulesKey) = false) :
    heapExtends h0 (mergeNamespacedTranslationsH fuel h0 eref nref loc).1 := by
  have hc : (mergeHCopy h0 eref).2 = h0.cells.length := rfl
  have hx1 : heapExtends h0 (mergeHCopy h0 eref).1 := heapExtends_alloc h0 _
  have hx2 : heapExtends h0
      (mergeHEnsure (mergeHCopy h0 eref).1 (mergeHCopy h0 eref).2 loc) :=
    mergeHEnsure_extends _ loc hx1 (Nat.le_of_eq hc.symm)
  have hcond : truthyH (hPropGet
      (mergeHEnsure (mergeHCopy h0 eref).1 (mergeHCopy h0 eref).2 loc)
      (.href nref) modulesKey) = false := by
    rw [hPropGet_congr nref modulesKey hx2 hn]
    exact hm
  simp only [mergeNamespacedTranslationsH, hcond, Bool.false_eq_true, if_false]
  exact mergeHDirect_extends fuel _ nref loc hx2 (Nat.le_of_eq hc.symm)

/-- Concrete heap for the C2 witness: cell 1 is a store, cell 0 a
contribution without a `modules` key. -/
def heapPure : Heap :=
  ⟨[.cobj [("k".data, .hstr "v".data)], .cobj [("en".data, .hstr "x".data)]]⟩

/-- Witness for the amended C2. -/
theorem C2_amended_pure_without_modules_witness :
    truthyH (hPropGet heapPure (.href 0) modulesKey) = false ∧
    heapExtends heapPure (mergeNamespacedTranslationsH 5 heapPure 1 0 "en".data).1 :=
  ⟨by decide, C2_amended_pure_without_modules 5 heapPure 1 0 "en".data
    (by decide) (by decide)⟩

/-- Concrete heap refuting C2 as stated: cell 1 is a store whose `en`
locale is the object in cell 0; cell 4 is a namespaced contribution
(`modules.user` pointing at cell 2). -/
def heapCE : Heap :=
  ⟨[.cobj [("a".data, .hstr "1".data)],
    .cobj [("en".data, .href 0)],
    .cobj [("b".data, .hstr "2".data)],
    .cobj [("user".data, .href 2)],
    .cobj [("modules".data, .href 3)]]⟩

/-- Counterexample to C2: merging the namespaced contribution of cell 4
into the store of cell 1 for locale `en` mutates the INPUT store's `en`
subtree (cell 0) in place — before the call it has no `modules` key,
after the call it does — so the input store is not left deep-equal. -/
theorem C2_counterexample :
    hPropGet heapCE (.href 1) "en".data = .href 0 ∧
    lookupK (objFields heapCE 0) modulesKey = none ∧
    lookupK (objFields (mergeNamespacedTranslationsH 10 heapCE 1 4 "en".data).1 0)
      modulesKey ≠ none := by decide

/-- Configuration for the C7 counterexample: an auxiliary pattern whose
first glob metacharacter is a `?`. -/
def c7config : TOptions :=
  { langPath := some "/primary".data,
    additionalLangPaths := some ["/app/mods?/lang".data] }

/-- Counterexample to C7: for the auxiliary pattern `/app/mods?/lang` and
the changed file `/app/mods?/lang/en.json` (a directory literally named
`mods?`), the code answers true — it splits patterns only on `*`, so the
whole pattern string is the prefix it tests — while the claim's condition
is false: the literal prefix before the first glob metacharacter is
`/app/mods`, and the file does not lie under that directory. -/
theorem C7_counterexample :
    checkIfTranslationFileEmb "/".data "/app/mods?/lang/en.json".data c7config = true ∧
    specIsRelevant "/".data "/app/mods?/lang/en.json".data c7config = false := by decide

/-- C7 amended: the change-relevance query answers true iff the normalized
path has the `.php` or `.json` extension AND it lies under the resolved
primary path (directory prefix), or under a `*`- and `?`-free auxiliary
path (directory prefix), or — for an auxiliary pattern containing `*` or
`?` — it starts, as a plain string prefix, with the resolution of the
pattern's portion before its first `*` (a `?` is not a split point, and no
directory boundary is enforced for this case). -/
theorem C7_amended_relevance (cwd f : Str) (config : TOptions) (lp : Str)
    (hlp : config.langPath = some lp) :
    checkIfTranslationFileEmb cwd f config = true ↔
      ((endsWithL phpExtL (normalizeEmb f) || endsWithL jsonExtL (normalizeEmb f)) = true ∧
        (startsWithL (resolveEmb cwd lp ++ [sepC]) (normalizeEmb f) = true ∨
          ∃ pat ∈ config.additionalLangPaths.getD [],
            (if (pat.contains '*' || pat.contains '?') = false then
              startsWithL (resolveEmb cwd pat ++ [sepC]) (normalizeEmb f)
            else
              startsWithL (resolveEmb cwd (pat.takeWhile (fun c => decide (c ≠ '*'))))
                (normalizeEmb f)) = true)) := by
  simp only [checkIfTranslationFileEmb, hlp, Option.getD_some]
  by_cases hext :
      (endsWithL phpExtL (normalizeEmb f) || endsWithL jsonExtL (normalizeEmb f)) = false
  · simp [hext]
  · simp only [Bool.not_eq_false] at hext
    by_cases hprim : startsWithL (resolveEmb cwd lp ++ [sepC]) (normalizeEmb f) = true
    · simp [hext, hprim]
    · simp [hext, hprim, List.any_eq_true]

/-- Witness for the amended C7: a `.php` file under a glob auxiliary
pattern's `*`-prefix is relevant. -/
theorem C7_amended_relevance_witness :
    checkIfTranslationFileEmb "/".data "/modules/user/lang/en/a.php".data
      { langPath := some "/app/lang".data,
        additionalLangPaths := some ["/modules/*/lang".data] } = true :=
  (C7_amended_relevance "/".data "/modules/user/lang/en/a.php".data
    { langPath := some "/app/lang".data,
      additionalLangPaths := some ["/modules/*/lang".data] } "/app/lang".data rfl).mpr
    ⟨by decide, Or.inr ⟨"/modules/*/lang".data, by decide, by decide⟩⟩

theorem keysO_ocons (k : Str) (v : JVal) (rest : JObj) :
    keysO (.ocons k v rest) = k :: keysO rest := rfl

theorem lookupJ_some_mem_keys : ∀ {o : JObj} {k : Str} {v : JVal},
    lookupJ o k = some v → k ∈ keysO o := by
  intro o
  induction o using JObj.inductionOn with
  | base => intro k v h; simp [lookupJ] at h
  | step k1 v1 rest ih =>
    intro k v h
    rw [lookupJ] at h
    by_cases hk : k1 = k
    · subst hk; simp [keysO_ocons]
    · rw [if_neg hk] at h
      simp [keysO_ocons]
      exact Or.inr (ih h)

theorem dmGo_lookup_nmem (tob : JObj) (k : Str) :
    ∀ (src acc : JObj), k ∉ keysO src → lookupJ (dmGo tob src acc) k = lookupJ acc k
  | .onil, acc, _ => rfl
  | .ocons k1 sv rest, acc, h => by
    rw [keysO_ocons] at h
    simp only [List.mem_cons, not_or] at h
    show lookupJ (dmGo tob rest (setJ acc k1 _)) k = lookupJ acc k
    rw [dmGo_lookup_nmem tob k rest _ h.2, lookupJ_setJ_ne _ _ _ _ h.1]

theorem dmGo_lookup_first (tob : JObj) (k : Str) (sv : JVal) :
    ∀ (src acc : JObj), lookupJ src k = some sv → (keysO src).Nodup →
      lookupJ (dmGo tob src acc) k =
        some (if isObjT sv && isObjT ((lookupJ tob k).getD .vnull) then
          deepMergeT ((lookupJ tob k).getD .vnull) sv else sv)
  | .onil, acc, h, _ => by simp [lookupJ] at h
  | .ocons k1 v1 rest, acc, h, hnod => by
    rw [keysO_ocons] at hnod
    have hnod2 := List.nodup_cons.mp hnod
    by_cases hk : k1 = k
    · subst hk
      rw [lookupJ, if_pos rfl] at h
      injection h with h
      subst h
      show lookupJ (dmGo tob rest (setJ acc k1 _)) k1 = _
      rw [dmGo_lookup_nmem tob k1 rest _ hnod2.1, lookupJ_setJ_self]
    · rw [lookupJ, if_neg hk] at h
      show lookupJ (dmGo tob rest (setJ acc k1 _)) k = _
      exact dmGo_lookup_first tob k sv rest _ h hnod2.2

/-- C6: at a key present in both trees, `deepMerge` recurses when both
values are mapping-typed and otherwise lets the source value replace the
target value entirely — in particular an array value on either side is
replaced wholesale. -/
theorem C6_deep_merge_recurse_or_replace (tob so : JObj) (k : Str) (tv sv : JVal)
    (ht : lookupJ tob k = some tv) (hs : lookupJ so k = some sv)
    (hnod : (keysO so).Nodup) :
    propGet (deepMergeT (.vobj tob) (.vobj so)) k =
      some (if isObjT sv && isObjT tv then deepMergeT tv sv else sv) := by
  have h1 : deepMergeT (.vobj tob) (.vobj so) = .vobj (dmGo tob so tob) := rfl
  rw [h1]
  show lookupJ (dmGo tob so tob) k = _
  rw [dmGo_lookup_first tob k sv so tob hs hnod, ht]
  rfl

def tobW : JObj :=
  .ocons "n".data (.vobj (.ocons "a".data (.vstr "1".data) .onil))
    (.ocons "arr".data (.varr (.acons (.vstr "p".data) .anil)) .onil)

def soW : JObj :=
  .ocons "n".data (.vobj (.ocons "b".data (.vstr "2".data) .onil))
    (.ocons "arr".data (.varr (.acons (.vstr "q".data) .anil)) .onil)

/-- Witness for C6 at concrete trees: the shared object-valued key
recurses, the shared array-valued key is replaced wholesale by the source
array. -/
theorem C6_deep_merge_recurse_or_replace_witness :
    propGet (deepMergeT (.vobj tobW) (.vobj soW)) "n".data =
      some (deepMergeT (.vobj (.ocons "a".data (.vstr "1".data) .onil))
        (.vobj (.ocons "b".data (.vstr "2".data) .onil))) ∧
    propGet (deepMergeT (.vobj tobW) (.vobj soW)) "arr".data =
      some (.varr (.acons (.vstr "q".data) .anil)) := by
  constructor
  · have h := C6_deep_merge_recurse_or_replace tobW soW "n".data
      (.vobj (.ocons "a".data (.vstr "1".data) .onil))
      (.vobj (.ocons "b".data (.vstr "2".data) .onil)) rfl rfl (by decide)
    simpa [isObjT] using h
  · have h := C6_deep_merge_recurse_or_replace tobW soW "arr".data
      (.varr (.acons (.vstr "p".data) .anil))
      (.varr (.acons (.vstr "q".data) .anil)) rfl rfl (by decide)
    simpa [isObjT] using h

/-- C8: every malformed-resource condition makes the loader yield null and
the orchestrator's loop skip the resource, leaving the store untouched:
(1) an unreadable file; (2) structured text that fails to decode; (3)
markup the parser throws on; (4) a parsed markup program whose first
top-level return does not return an array literal (or that has no return,
or a bare `return;`); and (5) a null load makes the fold step the
identity on the store.  No exception escapes: each failing collaborator
call is modelled by the `none` the surrounding catch turns into null, and
the orchestrator is a total function by construction. -/
theorem C8_malformed_resource_skipped :
    (∀ (W : World) (file : TFile), W.readFile file.fpath = none →
      loadTranslationFileEmb W file = none) ∧
    (∀ (W : World) (file : TFile) (c : Str), file.ftype = .fjson →
      W.readFile file.fpath = some c → W.parseJson c = none →
      loadTranslationFileEmb W file = none) ∧
    (∀ (W : World) (file : TFile) (c : Str), file.ftype = .fphp →
      W.readFile file.fpath = some c → W.parsePhp c = none →
      loadTranslationFileEmb W file = none) ∧
    (∀ (W : World) (file : TFile) (c : Str) (ast : List PhpNode), file.ftype = .fphp →
      W.readFile file.fpath = some c → W.parsePhp c = some ast →
      (∀ e items, ast.find? isReturnNode = some (.nreturn (some e)) → e ≠ .parr items) →
      loadTranslationFileEmb W file = none) ∧
    (∀ (W : World) (options : TOptions) (store : JObj) (file : TFile),
      loadTranslationFileEmb W file = none →
      exportStep W options store file = store) := by
  refine ⟨?_, ?_, ?_, ?_, ?_⟩
  · intro W file h
    simp [loadTranslationFileEmb, h]
  · intro W file c hty hr hp
    simp [loadTranslationFileEmb, hr, hty, hp]
  · intro W file c hty hr hp
    simp [loadTranslationFileEmb, hr, hty, hp]
  · intro W file c ast hty hr hp hshape
    simp only [loadTranslationFileEmb, hr, hty, hp]
    unfold phpProgramValue
    cases hfind : ast.find? isReturnNode with
    | none => rfl
    | some node =>
      cases node with
      | nother => rfl
      | nreturn oe =>
        cases oe with
        | none => rfl
        | some e =>
          cases e with
          | parr items => exact absurd rfl (hshape (.parr items) items hfind)
          | pstr s => rfl
          | pnum s => rfl
          | pbool b => rfl
          | pbin op l r => rfl
          | pother => rfl
  · intro W options store file h
    simp [exportStep, h, truthyO]

/-- World for the C8 witness: one JSON resource whose content fails to
decode. -/
def w8 : World where
  cwd := "/".data
  readdir := fun _ => none
  stat := fun _ => none
  globPhp := fun _ => []
  readFile := fun _ => some "bad json".data
  parseJson := fun _ => none
  parsePhp := fun _ => none
  globSync := fun _ _ _ => []

def f8 : TFile := ⟨"/lang/en.json".data, "en".data, .fjson, "/lang".data, none⟩

/-- Witness for C8: the malformed JSON resource loads as null and its fold
step leaves a store unchanged. -/
theorem C8_malformed_resource_skipped_witness :
    loadTranslationFileEmb w8 f8 = none ∧
    exportStep w8 {} (.ocons "en".data (.vstr "x".data) .onil) f8 =
      .ocons "en".data (.vstr "x".data) .onil := by
  have h1 := C8_malformed_resource_skipped.2.1 w8 f8 "bad json".data rfl rfl rfl
  exact ⟨h1, C8_malformed_resource_skipped.2.2.2.2 w8 {}
    (.ocons "en".data (.vstr "x".data) .onil) f8 h1⟩

/-- Top-level keys of a tree value (empty for non-objects). -/
def topKeysV : JVal → List Str
  | .vobj o => keysO o
  | _ => []

theorem keysO_setJ (o : JObj) (k : Str) (v : JVal) :
    ∀ k1, k1 ∈ keysO (setJ o k v) → k1 ∈ keysO o ∨ k1 = k := by
  induction o using JObj.inductionOn with
  | base =>
    intro k1 h
    rw [setJ, keysO_ocons] at h
    rcases List.mem_cons.mp h with h | h
    · exact Or.inr h
    · simp [keysO, toListO] at h
  | step k2 v2 rest ih =>
    intro k1 h
    by_cases hk : k2 = k
    · subst hk
      rw [setJ, if_pos rfl, keysO_ocons] at h
      exact Or.inl h
    · rw [setJ, if_neg hk, keysO_ocons] at h
      rcases List.mem_cons.mp h with h | h
      · exact Or.inl (by rw [keysO_ocons]; exact List.mem_cons.mpr (Or.inl h))
      · rcases ih k1 h with h2 | h2
        · exact Or.inl (by rw [keysO_ocons]; exact List.mem_cons.mpr (Or.inr h2))
        · exact Or.inr h2

theorem topKeysV_setProp (v : JVal) (k : Str) (x : JVal) :
    ∀ k1 ∈ topKeysV (setProp v k x), k1 ∈ topKeysV v ∨ k1 = k := by
  intro k1 h
  cases v with
  | vobj o => exact keysO_setJ o k x k1 h
  | vstr s => exact Or.inl h
  | vnum n => exact Or.inl h
  | vbool b => exact Or.inl h
  | vnull => exact Or.inl h
  | varr a => exact Or.inl h

theorem topKeysV_setProp2 (v : JVal) (k1 k2 : Str) (x : JVal) :
    ∀ kk ∈ topKeysV (setProp2 v k1 k2 x), kk ∈ topKeysV v ∨ kk = k1 := by
  intro kk h
  unfold setProp2 at h
  cases hp : propGet v k1 with
  | none => rw [hp] at h; exact Or.inl h
  | some w =>
    rw [hp] at h
    cases w with
    | vobj mo => exact topKeysV_setProp v k1 _ kk h
    | vstr s => exact Or.inl h
    | vnum n => exact Or.inl h
    | vbool b => exact Or.inl h
    | vnull => exact Or.inl h
    | varr a => exact Or.inl h

theorem dmGo_keys (tob : JObj) :
    ∀ (src acc : JObj) (k : Str), k ∈ keysO (dmGo tob src acc) → k ∈ keysO acc ∨ k ∈ keysO src
  | .onil, acc, k, h => Or.inl h
  | .ocons k1 sv rest, acc, k, h => by
    have h0 : dmGo tob (.ocons k1 sv rest) acc =
        dmGo tob rest (setJ acc k1
          (if isObjT sv && isObjT ((lookupJ tob k1).getD .vnull) then
            deepMergeT ((lookupJ tob k1).getD .vnull) sv else sv)) := rfl
    rw [h0] at h
    rcases dmGo_keys tob rest _ k h with h2 | h2
    · rcases keysO_setJ acc k1 _ k h2 with h3 | h3
      · exact Or.inl h3
      · subst h3
        exact Or.inr (by rw [keysO_ocons]; exact List.mem_cons_self _ _)
    · exact Or.inr (by rw [keysO_ocons]; exact List.mem_cons_of_mem _ h2)

theorem deepMergeT_shape (t s : JVal) :
    deepMergeT t s = s ∨
      ∃ tob so, t = .vobj tob ∧ s = .vobj so ∧ deepMergeT t s = .vobj (dmGo tob so tob) := by
  cases s <;> cases t <;>
    first
      | exact Or.inl rfl
      | exact Or.inr ⟨_, _, rfl, rfl, rfl⟩

theorem topKeysV_deepMergeT (t s : JVal) :
    ∀ k ∈ topKeysV (deepMergeT t s), k ∈ topKeysV t ∨ k ∈ topKeysV s := by
  intro k hk
  rcases deepMergeT_shape t s with h | ⟨tob, so, ht, hs, h⟩
  · rw [h] at hk
    exact Or.inr hk
  · subst ht
    subst hs
    rw [h] at hk
    exact dmGo_keys tob so tob k hk

theorem mergeModuleStep_topkeys (lv : JVal) (kv : Str × JVal) :
    ∀ k ∈ topKeysV (mergeModuleStep lv kv), k ∈ topKeysV lv ∨ k = modulesKey := by
  intro k hk
  unfold mergeModuleStep at hk
  rcases topKeysV_setProp2 _ modulesKey kv.1 _ k hk with h | h
  · by_cases hc : truthyO (propGet2 lv modulesKey kv.1) = true
    · rw [if_pos hc] at h
      exact Or.inl h
    · rw [if_neg hc] at h
      exact topKeysV_setProp2 lv modulesKey kv.1 _ k h
  · exact Or.inr h

theorem foldl_mergeModuleStep_topkeys (entries : List (Str × JVal)) :
    ∀ (lv : JVal) (k : Str), k ∈ topKeysV (entries.foldl mergeModuleStep lv) →
      k ∈ topKeysV lv ∨ k = modulesKey := by
  induction entries with
  | nil => intro lv k h; exact Or.inl h
  | cons kv rest ih =>
    intro lv k h
    rw [List.foldl_cons] at h
    rcases ih _ k h with h2 | h2
    · exact mergeModuleStep_topkeys lv kv k h2
    · exact Or.inr h2

theorem mergeModulesT_topkeys (result : JObj) (newT : JVal) (L k : Str) (sub : JVal)
    (hsub : lookupJ (mergeModulesT result newT L) L = some sub)
    (hk : k ∈ topKeysV sub) :
    k ∈ topKeysV ((lookupJ result L).getD .vnull) ∨ k = modulesKey := by
  simp only [mergeModulesT] at hsub
  rw [lookupJ_setJ_self] at hsub
  injection hsub with hsub
  subst hsub
  rcases foldl_mergeModuleStep_topkeys _ _ k hk with h | h
  · by_cases hc : truthyO (propGet ((lookupJ result L).getD .vnull) modulesKey) = true
    · rw [if_pos hc] at h
      exact Or.inl h
    · rw [if_neg hc] at h
      rcases topKeysV_setProp _ modulesKey _ k h with h2 | h2
      · exact Or.inl h2
      · exact Or.inr h2
  · exact Or.inr h

theorem truthyO_modulesKey_mem (contrib : JVal)
    (h : truthyO (propGet contrib modulesKey) = true) : modulesKey ∈ topKeysV contrib := by
  cases contrib with
  | vobj co =>
    cases hl : lookupJ co modulesKey with
    | none => rw [propGet, hl] at h; simp [truthyO] at h
    | some w => exact lookupJ_some_mem_keys hl
  | vstr s => simp [propGet, truthyO] at h
  | vnum n => simp [propGet, truthyO] at h
  | vbool b => simp [propGet, truthyO] at h
  | vnull => simp [propGet, truthyO] at h
  | varr a => simp [propGet, truthyO] at h

theorem ensureLocaleT_lookup_self (store : JObj) (L : Str) :
    lookupJ (ensureLocaleT store L) L = lookupJ store L ∨
      lookupJ (ensureLocaleT store L) L = some (.vobj .onil) := by
  unfold ensureLocaleT
  split
  · exact Or.inl rfl
  · exact Or.inr (lookupJ_setJ_self store L _)

/-- Provenance of the top-level keys the merge produces: every top-level
key of the returned store's `loc` subtree was already a top-level key of
the input store's `loc` subtree, or is a top-level key of the
contribution. -/
theorem mergeNT_topkeys (store : JObj) (contrib : JVal) (L loc k : Str) (sub : JVal)
    (hsub : lookupJ (mergeNamespacedTranslationsT store contrib L) loc = some sub)
    (hk : k ∈ topKeysV sub) :
    (∃ sub0, lookupJ store loc = some sub0 ∧ k ∈ topKeysV sub0) ∨ k ∈ topKeysV contrib := by
  by_cases hL : loc = L
  case neg =>
    rw [mergeNT_lookup_ne store contrib L loc hL] at hsub
    exact Or.inl ⟨sub, hsub, hk⟩
  case pos =>
    subst hL
    unfold mergeNamespacedTranslationsT at hsub
    have hens := ensureLocaleT_lookup_self store loc
    by_cases h2 : truthyO (propGet contrib modulesKey) = true
    · rw [if_pos h2] at hsub
      rcases mergeModulesT_topkeys _ contrib loc k sub hsub hk with h3 | h3
      · rcases hens with he | he
        · cases hl : lookupJ store loc with
          | none =>
            rw [hl] at he
            rw [he] at h3
            simp [topKeysV, keysO, toListO] at h3
          | some sub0 =>
            rw [hl] at he
            rw [he] at h3
            exact Or.inl ⟨sub0, rfl, by simpa using h3⟩
        · rw [he] at h3
          simp [topKeysV, keysO, toListO] at h3
      · subst h3
        exact Or.inr (truthyO_modulesKey_mem contrib h2)
    · rw [if_neg h2] at hsub
      rw [lookupJ_setJ_self] at hsub
      injection hsub with hsub
      subst hsub
      rcases topKeysV_deepMergeT _ contrib k hk with h3 | h3
      · rcases hens with he | he
        · cases hl : lookupJ store loc with
          | none =>
            rw [hl] at he
            rw [he] at h3
            simp [topKeysV] at h3
          | some sub0 =>
            rw [hl] at he
            rw [he] at h3
            exact Or.inl ⟨sub0, rfl, by simpa using h3⟩
        · rw [he] at h3
          simp [topKeysV, keysO, toListO] at h3
      · exact Or.inr h3

theorem export_fold_topkeys (W : World) (opts : TOptions) :
    ∀ (files : List TFile) (store : JObj) (loc k : Str) (sub : JVal),
      lookupJ (files.foldl (exportStep W opts) store) loc = some sub →
      k ∈ topKeysV sub →
      (∃ sub0, lookupJ store loc = some sub0 ∧ k ∈ topKeysV sub0) ∨
      ∃ f ∈ files, ∃ content, loadTranslationFileEmb W f = some content ∧
        k ∈ topKeysV (exportContribution W opts f content)
  | [], store, loc, k, sub, hsub, hk => Or.inl ⟨sub, hsub, hk⟩
  | f :: rest, store, loc, k, sub, hsub, hk => by
    rw [List.foldl_cons] at hsub
    rcases export_fold_topkeys W opts rest (exportStep W opts store f) loc k sub hsub hk with
      ⟨sub0, hs0, hk0⟩ | ⟨g, hg, c, hc, hkc⟩
    · unfold exportStep at hs0
      cases hl : loadTranslationFileEmb W f with
      | none =>
        rw [hl] at hs0
        simp only [truthyO, Bool.false_eq_true, if_true] at hs0
        exact Or.inl ⟨sub0, hs0, hk0⟩
      | some c =>
        rw [hl] at hs0
        by_cases ht : truthyO (some c) = true
        · rw [if_neg (by simp [ht])] at hs0
          rcases mergeNT_topkeys store _ f.locale loc k sub0 (by simpa using hs0) hk0 with
            ⟨sub1, hs1, hk1⟩ | hcontrib
          · exact Or.inl ⟨sub1, hs1, hk1⟩
          · exact Or.inr ⟨f, List.mem_cons_self f rest, c, hl, hcontrib⟩
        · simp only [Bool.not_eq_true] at ht
          rw [ht] at hs0
          simp only [if_true] at hs0
          exact Or.inl ⟨sub0, hs0, hk0⟩
    · exact Or.inr ⟨g, List.mem_cons_of_mem f hg, c, hc, hkc⟩

/-- C3 amended: the orchestrator never introduces a top-level key of any
locale's subtree by itself — every such key (including any literally named
`php` or `json`) is a top-level key of some admitted resource's own
contribution (its content keys, its path-derived key, or the `modules`
wrapper); the assembled structure never groups by format. -/
theorem C3_amended_topkey_provenance (W : World) (p : PathOrOptions) (loc k : Str)
    (sub : JVal)
    (hloc : lookupJ (exportTranslationsEmb W p) loc = some sub)
    (hk : k ∈ topKeysV sub) :
    ∃ f ∈ exportFiles W (exportOptions p), ∃ content,
      loadTranslationFileEmb W f = some content ∧
      k ∈ topKeysV (exportContribution W (exportOptions p) f content) := by
  have h := export_fold_topkeys W (exportOptions p) (exportFiles W (exportOptions p))
    .onil loc k sub (by simpa [exportTranslationsEmb] using hloc) hk
  rcases h with ⟨sub0, hs0, _⟩ | h
  · simp [lookupJ] at hs0
  · exact h

/-- World for the C3 counterexample: the primary root holds one PHP
resource at `en/php.php` whose content is `return ['a' => 'b'];`. -/
def w3 : World where
  cwd := "/".data
  readdir := fun p => if p = "lang".data then some ["en".data] else none
  stat := fun p => if p = "lang/en".data then some true else none
  globPhp := fun p => if p = "lang/en".data then ["/lang/en/php.php".data] else []
  readFile := fun p => if p = "/lang/en/php.php".data then some "P1".data else none
  parseJson := fun _ => none
  parsePhp := fun c => if c = "P1".data then
    some [.nreturn (some (.parr (.ikeyed (.pstr "a".data) (.pstr "b".data) .inil)))] else none
  globSync := fun _ _ _ => []

/-- Counterexample to C3: a filesystem holding the admitted resource
`en/php.php` produces a store whose `en` subtree has the top-level key
`php` (the extension-stripped filename), so the claim quantified over
every filesystem content is false. -/
theorem C3_counterexample :
    lookupJ (exportTranslationsEmb w3 (.pstr "lang".data)) "en".data =
      some (.vobj (.ocons "php".data
        (.vobj (.ocons "a".data (.vstr "b".data) .onil)) .onil)) := by rfl

/-- Witness for the amended C3 at the `w3` world: the `php` key of the
`en` subtree is traced to the contribution of the `en/php.php` resource. -/
theorem C3_amended_topkey_provenance_witness :
    ∃ f ∈ exportFiles w3 (exportOptions (.pstr "lang".data)), ∃ content,
      loadTranslationFileEmb w3 f = some content ∧
      "php".data ∈ topKeysV (exportContribution w3 (exportOptions (.pstr "lang".data)) f content) :=
  C3_amended_topkey_provenance w3 (.pstr "lang".data) "en".data "php".data
    (.vobj (.ocons "php".data (.vobj (.ocons "a".data (.vstr "b".data) .onil)) .onil))
    (by rfl) (by decide)

/-! Support for C1: the split/join round trip, segment cleanliness, the
last path segment, and the behaviour of JS `replace` on an
extension-suffixed segment. -/

theorem splitCh_ne_nil (sep : Char) : ∀ s : Str, splitCh sep s ≠ []
  | [] => by simp [splitCh]
  | c :: rest => by
    have h := splitCh_ne_nil sep rest
    simp only [splitCh]
    split
    · simp
    · simp

theorem splitCh_no_sep (sep : Char) : ∀ s : Str, sep ∉ s → splitCh sep s = [s]
  | [], _ => rfl
  | c :: rest, h => by
    simp only [List.mem_cons, not_or] at h
    simp only [splitCh, if_neg (Ne.symm h.1), splitCh_no_sep sep rest h.2]
    rfl

theorem splitCh_append_sep (sep : Char) :
    ∀ (piece rest : Str), sep ∉ piece →
      splitCh sep (piece ++ sep :: rest) = piece :: splitCh sep rest
  | [], rest, _ => by simp [splitCh]
  | c :: p1, rest, h => by
    simp only [List.mem_cons, not_or] at h
    have ih := splitCh_append_sep sep p1 rest h.2
    show splitCh sep (c :: (p1 ++ sep :: rest)) = (c :: p1) :: splitCh sep rest
    simp only [splitCh, if_neg (Ne.symm h.1)]
    rw [ih]
    rfl

theorem splitCh_joinCh (sep : Char) :
    ∀ L : List Str, (∀ x ∈ L, x ≠ [] ∧ sep ∉ x) →
      splitCh sep (joinCh sep L) = if L = [] then [[]] else L
  | [], _ => rfl
  | [x], h => by
    simp only [joinCh]
    rw [splitCh_no_sep sep x (h x (by simp)).2]
    simp
  | x :: y :: L, h => by
    have hx := h x (by simp)
    have ih := splitCh_joinCh sep (y :: L) (fun z hz => h z (List.mem_cons_of_mem x hz))
    show splitCh sep (x ++ sep :: joinCh sep (y :: L)) = _
    rw [splitCh_append_sep sep x (joinCh sep (y :: L)) hx.2, ih]
    simp

theorem splitCh_mem_no_sep (sep : Char) :
    ∀ (s : Str) (x : Str), x ∈ splitCh sep s → sep ∉ x
  | [], x, h => by
    simp [splitCh] at h
    simp [h]
  | c :: rest, x, h => by
    simp only [splitCh] at h
    by_cases hc : c = sep
    · rw [if_pos hc] at h
      rcases List.mem_cons.mp h with h | h
      · simp [h]
      · exact splitCh_mem_no_sep sep rest x h
    · rw [if_neg hc] at h
      rcases List.mem_cons.mp h with h | h
      · subst h
        intro hmem
        rcases List.mem_cons.mp hmem with h2 | h2
        · exact hc h2.symm
        · cases hr : splitCh sep rest with
          | nil => exact splitCh_ne_nil sep rest hr
          | cons hd tl =>
            have hmem2 : hd ∈ splitCh sep rest := by
              rw [hr]
              exact List.mem_cons_self _ _
            have h3 := splitCh_mem_no_sep sep rest hd hmem2
            rw [hr] at h2
            simp only [List.headD_cons] at h2
            exact h3 h2
      · have hsub : x ∈ splitCh sep rest := by
          cases hr : splitCh sep rest with
          | nil =>
            rw [hr] at h
            simp at h
          | cons hd tl =>
            rw [hr] at h
            simp only [List.tail_cons] at h
            exact List.mem_cons_of_mem _ h
        exact splitCh_mem_no_sep sep rest x hsub

theorem foldl_resolveStep_mem :
    ∀ (segs acc : List Str) (x : Str), x ∈ segs.foldl resolveStep acc → x ∈ acc ∨ x ∈ segs
  | [], acc, x, h => Or.inl h
  | seg :: rest, acc, x, h => by
    rw [List.foldl_cons] at h
    rcases foldl_resolveStep_mem rest (resolveStep acc seg) x h with h2 | h2
    · unfold resolveStep at h2
      split at h2
      · exact Or.inl h2
      · split at h2
        · exact Or.inl (List.dropLast_subset acc h2)
        · rcases List.mem_append.mp h2 with h3 | h3
          · exact Or.inl h3
          · simp only [List.mem_singleton] at h3
            subst h3
            exact Or.inr (List.mem_cons_self _ _)
    · exact Or.inr (List.mem_cons_of_mem _ h2)

theorem resolveSegs_mem (segs : List Str) (x : Str) (h : x ∈ resolveSegs segs) : x ∈ segs := by
  rcases foldl_resolveStep_mem segs [] x h with h2 | h2
  · simp at h2
  · exact h2

theorem splitPath_mem (p x : Str) (h : x ∈ splitPath p) : x ≠ [] ∧ sepC ∉ x := by
  unfold splitPath at h
  have h2 := List.mem_filter.mp h
  refine ⟨by simpa using h2.2, splitCh_mem_no_sep sepC p x h2.1⟩

theorem absSegs_mem (cwd p x : Str) (h : x ∈ absSegs cwd p) : x ≠ [] ∧ sepC ∉ x := by
  unfold absSegs at h
  split at h
  · exact splitPath_mem p x (resolveSegs_mem _ x h)
  · rcases List.mem_append.mp (resolveSegs_mem _ x h) with h2 | h2
    · exact splitPath_mem cwd x h2
    · exact splitPath_mem p x h2

theorem dropCommon2_drop :
    ∀ (a b : List Str), ∃ n, dropCommon2 a b = (a.drop n, b.drop n)
  | [], b => ⟨0, rfl⟩
  | a :: arest, [] => ⟨0, rfl⟩
  | a :: arest, b :: brest => by
    by_cases hab : a = b
    · rcases dropCommon2_drop arest brest with ⟨n, hn⟩
      exact ⟨n + 1, by simp [dropCommon2, hab, hn]⟩
    · exact ⟨0, by simp [dropCommon2, hab]⟩

theorem relativeSegs_mem (cwd a b x : Str) (h : x ∈ relativeSegs cwd a b) :
    x ≠ [] ∧ sepC ∉ x := by
  unfold relativeSegs at h
  rcases List.mem_append.mp h with h2 | h2
  · rcases List.mem_map.mp h2 with ⟨y, _, hy⟩
    subst hy
    refine ⟨by simp, by decide⟩
  · rcases dropCommon2_drop (absSegs cwd a) (absSegs cwd b) with ⟨n, hn⟩
    rw [hn] at h2
    exact absSegs_mem cwd b x (List.mem_of_mem_drop h2)

theorem splitCh_getLast_suffix (sep : Char) :
    ∀ (s suf : Str), suf ≠ [] → sep ∉ suf → suf <:+ s →
      ∃ x, (splitCh sep s).getLast? = some x ∧ suf <:+ x
  | [], suf, hne, _, hsuf => absurd (List.suffix_nil.mp hsuf) hne
  | c :: rest, suf, hne, hsep, hsuf => by
    rcases List.suffix_cons_iff.mp hsuf with h | h
    · have hsep2 : sep ∉ c :: rest := by rw [← h]; exact hsep
      rw [splitCh_no_sep sep (c :: rest) hsep2]
      exact ⟨c :: rest, by simp, by rw [h]⟩
    · rcases splitCh_getLast_suffix sep rest suf hne hsep h with ⟨x, hx, hsx⟩
      simp only [splitCh]
      by_cases hc : c = sep
      · rw [if_pos hc]
        cases hr : splitCh sep rest with
        | nil => exact absurd hr (splitCh_ne_nil sep rest)
        | cons hd tl =>
          rw [hr] at hx
          rw [List.getLast?_cons_cons]
          exact ⟨x, hx, hsx⟩
      · rw [if_neg hc]
        cases hr : splitCh sep rest with
        | nil => exact absurd hr (splitCh_ne_nil sep rest)
        | cons hd tl =>
          rw [hr] at hx
          cases tl with
          | nil =>
            have hdx : hd = x := by simpa using hx
            subst hdx
            simp only [List.headD_cons, List.tail_cons]
            refine ⟨c :: hd, by simp, ?_⟩
            rcases hsx with ⟨t, ht⟩
            exact ⟨c :: t, by rw [List.cons_append, ht]⟩
          | cons hd2 tl2 =>
            simp only [List.headD_cons, List.tail_cons, List.getLast?_cons_cons]
            rw [List.getLast?_cons_cons] at hx
            exact ⟨x, hx, hsx⟩

theorem getLast?_filter (pred : Str → Bool) :
    ∀ (L : List Str) (x : Str), L.getLast? = some x → pred x = true →
      (L.filter pred).getLast? = some x
  | [], x, h, _ => by simp at h
  | [y], x, h, hp => by
    have hyx : y = x := by simpa using h
    subst hyx
    simp [List.filter_cons, hp]
  | y :: z :: L, x, h, hp => by
    rw [List.getLast?_cons_cons] at h
    have ih := getLast?_filter pred (z :: L) x h hp
    have hne : (z :: L).filter pred ≠ [] := by
      intro hnil
      rw [hnil] at ih
      simp at ih
    cases hpy : pred y with
    | false => simpa [List.filter_cons, hpy] using ih
    | true =>
      cases hfe : (z :: L).filter pred with
      | nil => exact absurd hfe hne
      | cons a as =>
        rw [hfe] at ih
        simp only [List.filter_cons, hpy, if_true, hfe, List.getLast?_cons_cons]
        exact ih

theorem resolveSegs_concat (A : List Str) (x : Str) (h1 : x ≠ ['.'])
    (h2 : x ≠ ['.', '.']) : resolveSegs (A ++ [x]) = resolveSegs A ++ [x] := by
  unfold resolveSegs
  rw [List.foldl_append]
  simp [resolveStep, h1, h2]

theorem getLast?_of_drop_singleton {l : List Str} {n : Nat} {x : Str}
    (h : l.drop n = [x]) : l.getLast? = some x := by
  have h2 := List.take_append_drop n l
  rw [h] at h2
  rw [← h2]
  exact List.getLast?_concat _

theorem absSegs_getLast_suffix (cwd p suf : Str) (hsuf : suf <:+ p) (hne : suf ≠ [])
    (hsep : sepC ∉ suf) (hlen : 3 ≤ suf.length) :
    ∃ x, (absSegs cwd p).getLast? = some x ∧ suf <:+ x := by
  rcases splitCh_getLast_suffix sepC p suf hne hsep hsuf with ⟨ x, hx, hsx⟩
  have hxe : x ≠ [] := by
    intro hxe
    rw [hxe] at hsx
    exact hne (List.suffix_nil.mp hsx)
  have hxp : (splitPath p).getLast? = some x := by
    apply getLast?_filter _ _ x hx
    simpa using hxe
  rcases List.getLast?_eq_some_iff.mp hxp with ⟨A, hA⟩
  have hslen := hsx.length_le
  have hxdot : x ≠ ['.'] := by
    intro he
    rw [he] at hslen
    simp at hslen
    omega
  have hxdd : x ≠ ['.', '.'] := by
    intro he
    rw [he] at hslen
    simp at hslen
    omega
  unfold absSegs
  split
  · rw [hA, resolveSegs_concat A x hxdot hxdd]
    exact ⟨x, List.getLast?_concat _, hsx⟩
  · rw [hA, ← List.append_assoc, resolveSegs_concat _ x hxdot hxdd]
    exact ⟨x, List.getLast?_concat _, hsx⟩

theorem relParts_eq_relativeSegs (cwd root p : Str)
    (hL : relativeSegs cwd root p ≠ []) :
    relParts cwd root p = relativeSegs cwd root p := by
  unfold relParts relativeStr
  rw [splitCh_joinCh sepC (relativeSegs cwd root p)
    (fun x hx => relativeSegs_mem cwd root p x hx), if_neg hL]

theorem relParts_singleton (cwd root p : Str)
    (hlen : (relParts cwd root p).length = 1) :
    (relParts cwd root p).headD [] = [] ∨
    (relParts cwd root p).headD [] = ['.', '.'] ∨
    (absSegs cwd p).getLast? = some ((relParts cwd root p).headD []) := by
  by_cases hL : relativeSegs cwd root p = []
  · left
    unfold relParts relativeStr
    rw [hL]
    rfl
  · have hparts := relParts_eq_relativeSegs cwd root p hL
    rw [hparts] at hlen ⊢
    rcases dropCommon2_drop (absSegs cwd root) (absSegs cwd p) with ⟨n, hn⟩
    have hform : relativeSegs cwd root p =
        ((absSegs cwd root).drop n).map (fun _ => ['.', '.']) ++ (absSegs cwd p).drop n := by
      unfold relativeSegs
      rw [hn]
    rw [hform] at hlen ⊢
    rw [List.length_append, List.length_map] at hlen
    cases hf : (absSegs cwd root).drop n with
    | nil =>
      rw [hf] at hlen
      simp only [List.length_nil, Nat.zero_add] at hlen
      cases ht : (absSegs cwd p).drop n with
      | nil =>
        rw [ht] at hlen
        simp at hlen
      | cons a as =>
        rw [ht] at hlen
        simp only [List.length_cons] at hlen
        have has : as = [] := List.length_eq_zero.mp (by omega)
        subst has
        right
        right
        simp only [List.map_nil, List.nil_append, List.headD_cons]
        exact getLast?_of_drop_singleton ht
    | cons b bs =>
      rw [hf] at hlen
      simp only [List.length_cons] at hlen
      have hbs : bs = [] := List.length_eq_zero.mp (by omega)
      have ht : ((absSegs cwd p).drop n).length = 0 := by omega
      subst hbs
      right
      left
      rw [List.length_eq_zero.mp ht]
      rfl

theorem localeTest_no_dot : ∀ l : Str, '.' ∈ l → localeTest l = false := by
  intro l h
  rcases l with _ | ⟨a, _ | ⟨b, _ | ⟨u, _ | ⟨c2, _ | ⟨d, rest⟩⟩⟩⟩⟩
  · simp at h
  · rfl
  · simp only [List.mem_cons, List.not_mem_nil, or_false] at h
    rcases h with h | h <;>
      · subst h
        simp +decide [localeTest, lowerAZ]
  · rfl
  · rfl
  · cases rest with
    | nil =>
      simp only [List.mem_cons, List.not_mem_nil, or_false] at h
      rcases h with h | h | h | h | h <;>
        · subst h
          simp +decide [localeTest, lowerAZ, upperAZ]
    | cons e rest2 => rfl

theorem replaceFirst_cons_pos (pat : Str) (c : Char) (rest : Str)
    (hp : pat.isPrefixOf (c :: rest) = true) :
    replaceFirst pat (c :: rest) = (c :: rest).drop pat.length := by
  simp only [replaceFirst, hp, if_true]

theorem replaceFirst_cons_neg (pat : Str) (c : Char) (rest : Str)
    (hp : pat.isPrefixOf (c :: rest) = false) :
    replaceFirst pat (c :: rest) = c :: replaceFirst pat rest := by
  simp only [replaceFirst, hp, Bool.false_eq_true, if_false]

theorem replaceFirst_concat :
    ∀ Z : Str, replaceFirst jsonExtL (Z ++ jsonExtL) = Z ∨
      ('.' ∈ Z ∧ '.' ∈ replaceFirst jsonExtL (Z ++ jsonExtL))
  | [] => Or.inl rfl
  | c :: Z1 => by
    by_cases hp : jsonExtL.isPrefixOf (c :: (Z1 ++ jsonExtL)) = true
    · have heq : replaceFirst jsonExtL ((c :: Z1) ++ jsonExtL) =
          ((c :: Z1) ++ jsonExtL).drop jsonExtL.length :=
        replaceFirst_cons_pos jsonExtL c (Z1 ++ jsonExtL) hp
      have hc : c = '.' := by
        rcases List.isPrefixOf_iff_prefix.mp hp with ⟨t, ht⟩
        have h2 := congrArg (fun l => l.headD ' ') ht
        simpa [jsonExtL] using h2.symm
      subst hc
      rcases Z1 with _ | ⟨z1, _ | ⟨z2, _ | ⟨z3, _ | ⟨z4, Z2⟩⟩⟩⟩
      · exact absurd hp (by decide)
      · simp +decide [jsonExtL, List.isPrefixOf] at hp
      · simp +decide [jsonExtL, List.isPrefixOf] at hp
      · simp +decide [jsonExtL, List.isPrefixOf] at hp
      · right
        refine ⟨List.mem_cons_self _ _, ?_⟩
        rw [heq]
        have hlen : jsonExtL.length ≤ ('.' :: z1 :: z2 :: z3 :: z4 :: Z2).length := by
          simp [jsonExtL]
        rw [List.drop_append_of_le_length hlen]
        exact List.mem_append.mpr (Or.inr (by decide))
    · have hp2 : jsonExtL.isPrefixOf (c :: (Z1 ++ jsonExtL)) = false :=
        Bool.not_eq_true _ ▸ eq_false_of_ne_true hp
      have heq : replaceFirst jsonExtL ((c :: Z1) ++ jsonExtL) =
          c :: replaceFirst jsonExtL (Z1 ++ jsonExtL) :=
        replaceFirst_cons_neg jsonExtL c (Z1 ++ jsonExtL) hp2
      rcases replaceFirst_concat Z1 with ih | ⟨ih1, ih2⟩
      · left
        rw [heq, ih]
      · right
        refine ⟨List.mem_cons_of_mem c ih1, ?_⟩
        rw [heq]
        exact List.mem_cons_of_mem c ih2

theorem stripSuffixL_concat (Z : Str) : stripSuffixL jsonExtL (Z ++ jsonExtL) = Z := by
  unfold stripSuffixL
  rw [if_pos (by rw [List.isSuffixOf_iff_suffix]; exact ⟨Z, rfl⟩)]
  have hl : (Z ++ jsonExtL).length - jsonExtL.length = Z.length := by
    simp
  rw [hl, List.take_left]

theorem localeTest_replaceFirst_suffix (x : Str) (h : jsonExtL <:+ x) :
    localeTest (replaceFirst jsonExtL x) = localeTest (stripSuffixL jsonExtL x) := by
  rcases h with ⟨Z, hZ⟩
  rw [← hZ, stripSuffixL_concat]
  rcases replaceFirst_concat Z with h2 | ⟨h2, h3⟩
  · rw [h2]
  · rw [localeTest_no_dot _ h3, localeTest_no_dot _ h2]

/-- C1: for a candidate ending in `.json`, the admission filter accepts
exactly when the path relative to the root is a single segment whose
`.json` extension stripped passes the locale test — the code's
first-occurrence `replace('.json','')` agrees with extension stripping on
every such segment, so `composer.json`, `package.json` and any other
non-locale-named `*.json` at the root of a scanned directory are never
admitted. -/
theorem C1_json_admission (cwd root p : Str) (h : endsWithL jsonExtL p = true) :
    isValidTranslationFile cwd p root = true ↔
      ((relParts cwd root p).length = 1 ∧
        localeTest (stripSuffixL jsonExtL ((relParts cwd root p).headD [])) = true) := by
  have hkey : (relParts cwd root p).length = 1 →
      localeTest (replaceFirst jsonExtL ((relParts cwd root p).headD [])) =
        localeTest (stripSuffixL jsonExtL ((relParts cwd root p).headD [])) := by
    intro hlen
    rcases relParts_singleton cwd root p hlen with hh | hh | hh
    · rw [hh]
      decide
    · rw [hh]
      decide
    · have hs : jsonExtL <:+ p := List.isSuffixOf_iff_suffix.mp h
      rcases absSegs_getLast_suffix cwd p jsonExtL hs (by decide) (by decide) (by decide)
        with ⟨x, hx, hsx⟩
      rw [hh] at hx
      injection hx with hx
      exact localeTest_replaceFirst_suffix _ (hx ▸ hsx)
  unfold isValidTranslationFile
  rw [if_pos h]
  simp only [Bool.and_eq_true, decide_eq_true_eq]
  constructor
  · rintro ⟨h1, h2⟩
    exact ⟨h1, by rw [← hkey h1]; exact h2⟩
  · rintro ⟨h1, h2⟩
    exact ⟨h1, by rw [hkey h1]; exact h2⟩

/-- Witness for C1: `en.json` at the root is admitted; `composer.json`
and `package.json` are not. -/
theorem C1_json_admission_witness :
    isValidTranslationFile "/".data "/lang/en.json".data "/lang".data = true ∧
    isValidTranslationFile "/".data "/lang/composer.json".data "/lang".data = false ∧
    isValidTranslationFile "/".data "/lang/package.json".data "/lang".data = false := by
  refine ⟨(C1_json_admission _ _ _ (by decide)).mpr ⟨by decide, by decide⟩, ?_, ?_⟩
  · have h := C1_json_admission "/".data "/lang".data "/lang/composer.json".data (by decide)
    by_contra hc
    simp only [Bool.not_eq_false] at hc
    have h2 := h.mp hc
    revert h2
    decide
  · have h := C1_json_admission "/".data "/lang".data "/lang/package.json".data (by decide)
    by_contra hc
    simp only [Bool.not_eq_false] at hc
    have h2 := h.mp hc
    revert h2
    decide
